import Mathlib

/-!
# pg_mooncake columnstore: scan adapter and writer

A shallow embedding of `src/columnstore/execution/columnstore_scan.cpp` and
`src/columnstore/columnstore_table.cpp`, with the properties of the design
document stated and proved over it.

Conventions of the embedding:
* `idx_t` / `uint64_t` values are `Nat` reduced modulo `2 ^ 64` where an operation can
  wrap, `int64_t` / `row_t` values are `Int`;
* a C++ exception (`NumericCast` out of range, a bounds-checked `vector::operator[]`)
  is the `none` of an `Option`;
* collaborators that live outside the two source files (the columnar writer, the host
  file system, the statistics cache, the deletion-vector store, the iteration order of
  `std::unordered_map`) are parameters.
-/

namespace Columnstore

/-! ## Machine integers -/

/-- Implicit conversion `int64_t -> uint64_t`: the value modulo `2 ^ 64`. -/
def toUInt64 (x : Int) : Nat := (x % 18446744073709551616).toNat

/-- Conversion `uint64_t -> int64_t` (`row_t`): two's complement reinterpretation. -/
def toInt64 (n : Nat) : Int :=
  if n % 2 ^ 64 < 2 ^ 63 then ((n % 2 ^ 64 : Nat) : Int) else ((n % 2 ^ 64 : Nat) : Int) - 18446744073709551616

/-- The cast `NumericCast<uint32_t>(int64_t)`: throws unless the value fits. -/
def NumericCast_uint32 (x : Int) : Option Nat :=
  if 0 ≤ x ∧ x < 4294967296 then some x.toNat else none

/-- The cast `NumericCast<uint32_t>(uint64_t)`: throws unless the value fits. -/
def NumericCast_uint32_u (x : Nat) : Option Nat :=
  if x < 2 ^ 32 then some x else none

/-- The cast `NumericCast<int32_t>(idx_t)`, converted back to `idx_t` by the assignment. -/
def NumericCast_int32 (x : Nat) : Option Nat :=
  if x < 2 ^ 31 then some x else none

/-! ## Row ids (`FinalizeChunk`, lines 162-174) -/

/-- The expression `(file_number << 32) + NumericCast<uint32_t>(file_row_numbers_data[i])`
stored into a `row_t`. -/
def rowId (file_number : Nat) (file_row_number : Int) : Option Int :=
  match NumericCast_uint32 file_row_number with
  | none => none
  | some lo => some (toInt64 (((file_number <<< 32) % 2 ^ 64 + lo) % 2 ^ 64))

/-- The choice `file_numbers.empty() ? file_list_idx : file_numbers[file_list_idx]`
of `FinalizeChunk`, after `NumericCast<int32_t>` of the reader's file index. -/
def fileNumber (file_numbers : List Nat) (file_list_idx : Nat) : Option Nat :=
  match NumericCast_int32 file_list_idx with
  | none => none
  | some idx => if file_numbers.isEmpty then some idx else file_numbers[idx]?

/-- The loop of `FinalizeChunk` that fills `row_ids_data[0 .. chunk.size())`. -/
def rowIdsLoop (file_number : Nat) : List Int → Option (List Int)
  | [] => some []
  | x :: xs =>
    match rowId file_number x with
    | none => none
    | some r =>
      match rowIdsLoop file_number xs with
      | none => none
      | some rs => some (r :: rs)

/-- The row-id part of `FinalizeChunk`: the `row_ids` vector computed from the
`file_row_number` column of the (already filtered) chunk. -/
def FinalizeChunk_rowIds (file_numbers : List Nat) (file_list_idx : Nat)
    (file_row_numbers_data : List Int) : Option (List Int) :=
  match fileNumber file_numbers file_list_idx with
  | none => none
  | some file_number => rowIdsLoop file_number file_row_numbers_data

/-- Decoding of a row id, high half: `row_id >> 32` (arithmetic shift on `int64_t`). -/
def rowIdFileNumber (row_id : Int) : Int := row_id >>> 32

/-- Decoding of a row id, low half: `row_id & 0xFFFFFFFF`. -/
def rowIdFileRowNumber (row_id : Int) : Int := Int.land row_id 0xFFFFFFFF

/-! ## Deletion vectors at scan time (`ApplyDeletions`, lines 104-148) -/

/-- The deletion vector of one `(file, chunk)` pair as the scan sees it: the bit test
`IsDeleted(offset_in_chunk)`. The class itself is declared outside the two source files. -/
structure DeletionVector where
  IsDeleted : Nat → Bool

/-- The entries of `unordered_map<idx_t, vector<idx_t>> chunk_to_rows`, listed in the order
in which their keys were first inserted. -/
abbrev ChunkToRows := List (Nat × List Nat)

/-- The statement `chunk_to_rows[chunk_idx].push_back(i)`. -/
def pushBack : ChunkToRows → Nat → Nat → ChunkToRows
  | [], chunk_idx, i => [(chunk_idx, [i])]
  | (k, rows) :: rest, chunk_idx, i =>
    if k = chunk_idx then (k, rows ++ [i]) :: rest
    else (k, rows) :: pushBack rest chunk_idx i

/-- First loop of `ApplyDeletions` (lines 119-125), running from row `i` over the rest of
the `file_row_number` column. -/
def chunkToRowsLoop (STANDARD_VECTOR_SIZE : Nat) : List Int → Nat → ChunkToRows → Option ChunkToRows
  | [], _, chunk_to_rows => some chunk_to_rows
  | x :: xs, i, chunk_to_rows =>
    match NumericCast_uint32_u (toUInt64 x) with
    | none => none
    | some offset_in_file =>
      chunkToRowsLoop STANDARD_VECTOR_SIZE xs (i + 1)
        (pushBack chunk_to_rows (offset_in_file / STANDARD_VECTOR_SIZE) i)

/-- Inner loop of `ApplyDeletions` (lines 136-144): the rows of one chunk index, tested
against that chunk's deletion vector, the survivors appended to the selection. -/
def selectRows (STANDARD_VECTOR_SIZE : Nat) (file_row_numbers_data : List Int)
    (dv : DeletionVector) : List Nat → List Nat → Option (List Nat)
  | [], sel => some sel
  | row_i :: rest, sel =>
    match file_row_numbers_data[row_i]? with
    | none => none
    | some x =>
      match NumericCast_uint32_u (toUInt64 x) with
      | none => none
      | some offset_in_file =>
        selectRows STANDARD_VECTOR_SIZE file_row_numbers_data dv rest
          (if !dv.IsDeleted (offset_in_file % STANDARD_VECTOR_SIZE) then sel ++ [row_i] else sel)

/-- Outer loop of `ApplyDeletions` (lines 130-145) over the entries of `chunk_to_rows` in
the order the map hands them out. -/
def deletionsLoop (STANDARD_VECTOR_SIZE : Nat) (file_row_numbers_data : List Int)
    (FetchDV : String → Nat → DeletionVector) (file_name : String) :
    ChunkToRows → List Nat → Option (List Nat)
  | [], sel => some sel
  | (chunk_idx, row_indices) :: rest, sel =>
    match selectRows STANDARD_VECTOR_SIZE file_row_numbers_data (FetchDV file_name chunk_idx)
        row_indices sel with
    | none => none
    | some sel1 =>
      deletionsLoop STANDARD_VECTOR_SIZE file_row_numbers_data FetchDV file_name rest sel1

/-- The method `ApplyDeletions`: the selection `sel[0 .. sel_size)` that the chunk is sliced
with. `iterate` is the order in which `std::unordered_map` enumerates its entries, which
the language leaves to the implementation; `FetchDV` is `DVManager::FetchDV` under the
active snapshot. -/
def ApplyDeletions (STANDARD_VECTOR_SIZE : Nat) (iterate : ChunkToRows → ChunkToRows)
    (FetchDV : String → Nat → DeletionVector) (file_paths : List String)
    (file_list_idx : Nat) (file_row_numbers_data : List Int) : Option (List Nat) :=
  match file_paths[file_list_idx]? with
  | none => none
  | some file_name =>
    match chunkToRowsLoop STANDARD_VECTOR_SIZE file_row_numbers_data 0 [] with
    | none => none
    | some chunk_to_rows =>
      deletionsLoop STANDARD_VECTOR_SIZE file_row_numbers_data FetchDV file_name
        (iterate chunk_to_rows) []

/-- The call `chunk.Slice(sel, sel_size)`: row `k` of the result is row `sel[k]` of the
chunk. -/
def Slice {α : Type} (chunk : List α) (sel : List Nat) : List α :=
  sel.filterMap (fun i => chunk[i]?)

/-- The bit the scan tests for the row with file row number `x`: bit `x % VECTOR_SIZE` of
the deletion vector of chunk `x / VECTOR_SIZE`. -/
def dvBit (STANDARD_VECTOR_SIZE : Nat) (FetchDV : String → Nat → DeletionVector)
    (file_name : String) (x : Int) : Bool :=
  (FetchDV file_name (x.toNat / STANDARD_VECTOR_SIZE)).IsDeleted (x.toNat % STANDARD_VECTOR_SIZE)

/-- The row indices `i` of a chunk whose deletion-vector bit is not set, in increasing
order. -/
def survivors (STANDARD_VECTOR_SIZE : Nat) (FetchDV : String → Nat → DeletionVector)
    (file_name : String) (file_row_numbers_data : List Int) : List Nat :=
  (List.range file_row_numbers_data.length).filter
    (fun i => !dvBit STANDARD_VECTOR_SIZE FetchDV file_name (file_row_numbers_data.getD i 0))

/-- Deletion vectors of a file in which no row is deleted. -/
def noDeletions : String → Nat → DeletionVector := fun _ _ => ⟨fun _ => false⟩

/-- Deletion vectors in which the rows at the even offsets of every chunk are deleted. -/
def evenDeleted : String → Nat → DeletionVector := fun _ _ => ⟨fun k => k % 2 == 0⟩

/-! ## Statistics pruning (`DynamicFilterPushdown`, lines 31-52) -/

/-- The result type of `TableFilter::CheckStatistics`. -/
inductive FilterPropagateResult
  | NO_PRUNING_POSSIBLE
  | FILTER_ALWAYS_TRUE
  | FILTER_ALWAYS_FALSE
  | FILTER_TRUE_OR_NULL
  | FILTER_FALSE_OR_NULL
  deriving DecidableEq, Repr

/-- What `DynamicFilterPushdown` uses from outside the source file: the statistics cache
(`columnstore_stats.Get<DataFileStatistics>(file)->Get(column)`, absent when the file's
statistics have no summary for the column), `StringUtil::GetFileName`, and
`TableFilter::CheckStatistics`. -/
structure ScanEnv (Filter Stats : Type) where
  columnstore_stats : String → String → Option Stats
  GetFileName : String → String
  CheckStatistics : Filter → Stats → FilterPropagateResult

/-- The lambda `skip_file` of `DynamicFilterPushdown`, for the file `file_path` and one
entry `(column index, filter)` of the filter set. Both subscripts are bounds-checked
vector accesses. -/
def skip_file {Filter Stats : Type} (env : ScanEnv Filter Stats) (names : List String)
    (column_ids : List Nat) (file_path : String) (entry : Nat × Filter) : Option Bool :=
  match column_ids[entry.1]? with
  | none => none
  | some column_id =>
    match names[column_id]? with
    | none => none
    | some name =>
      match env.columnstore_stats (env.GetFileName file_path) name with
      | none => some false
      | some stats =>
        some (decide (env.CheckStatistics entry.2 stats = FilterPropagateResult.FILTER_ALWAYS_FALSE))

/-- The algorithm `std::any_of` over a predicate that may throw. -/
def any_of {α : Type} (p : α → Option Bool) : List α → Option Bool
  | [] => some false
  | x :: xs =>
    match p x with
    | none => none
    | some true => some true
    | some false => any_of p xs

/-- The loop of `DynamicFilterPushdown` from `file_number` on, with the two vectors it
appends to. -/
def pushdownLoop {Filter Stats : Type} (env : ScanEnv Filter Stats) (names : List String)
    (column_ids : List Nat) (filters : List (Nat × Filter)) :
    List String → Nat → List String → List Nat → Option (List String × List Nat)
  | [], _, filtered_file_paths, file_numbers => some (filtered_file_paths, file_numbers)
  | file_path :: rest, file_number, filtered_file_paths, file_numbers =>
    match any_of (skip_file env names column_ids file_path) filters with
    | none => none
    | some true =>
      pushdownLoop env names column_ids filters rest (file_number + 1)
        filtered_file_paths file_numbers
    | some false =>
      pushdownLoop env names column_ids filters rest (file_number + 1)
        (filtered_file_paths ++ [file_path]) (file_numbers ++ [file_number])

/-- The method `DynamicFilterPushdown`, from the value of the member `file_numbers` before
the call: the member after the call, and the returned file list (`none` for `nullptr`,
which leaves the caller with the list it passed in). -/
def DynamicFilterPushdown {Filter Stats : Type} (env : ScanEnv Filter Stats)
    (file_numbers : List Nat) (file_paths : List String) (names : List String)
    (column_ids : List Nat) (filters : List (Nat × Filter)) :
    Option (List Nat × Option (List String)) :=
  match pushdownLoop env names column_ids filters file_paths 0 [] file_numbers with
  | none => none
  | some (filtered_file_paths, file_numbers1) =>
    some (file_numbers1,
      if filtered_file_paths.length < file_paths.length then some filtered_file_paths else none)

/-- The file list the scan goes on with after `DynamicFilterPushdown` returned `result`. -/
def keptPaths (file_paths : List String) (result : Option (List String)) : List String :=
  result.getD file_paths

/-- The filter set refers to columns that exist: every entry's index is within
`column_ids`, and the column id found there is within `names`. -/
def FiltersInRange {Filter : Type} (names : List String) (column_ids : List Nat)
    (filters : List (Nat × Filter)) : Prop :=
  ∀ e ∈ filters, ∃ c, column_ids[e.1]? = some c ∧ c < names.length

/-- The pruning criterion in words: some filter of the set is on a column whose summary is
present in the statistics of the file, and the filter checked against that summary is
`FILTER_ALWAYS_FALSE`. -/
def Dropped {Filter Stats : Type} (env : ScanEnv Filter Stats) (names : List String)
    (column_ids : List Nat) (filters : List (Nat × Filter)) (file_path : String) : Prop :=
  ∃ e ∈ filters, ∃ c name stats, column_ids[e.1]? = some c ∧ names[c]? = some name ∧
    env.columnstore_stats (env.GetFileName file_path) name = some stats ∧
    env.CheckStatistics e.2 stats = FilterPropagateResult.FILTER_ALWAYS_FALSE

/-- A statistics cache for two files of one column `col`, as (min, max) summaries: file
`A.parquet` holds 0..999 and file `B.parquet` holds 1000..1999; a filter `v` stands for
the predicate `col < v`. -/
def exampleEnv : ScanEnv Int (Int × Int) where
  columnstore_stats := fun file column =>
    if column = "col" then
      (if file = "A.parquet" then some (0, 999)
       else if file = "B.parquet" then some (1000, 1999) else none)
    else none
  GetFileName := fun path => path
  CheckStatistics := fun v s =>
    if s.2 < v then FilterPropagateResult.FILTER_ALWAYS_TRUE
    else if v ≤ s.1 then FilterPropagateResult.FILTER_ALWAYS_FALSE
    else FilterPropagateResult.NO_PRUNING_POSSIBLE

/-- The test of the loop body of `DynamicFilterPushdown`, `!any_of(...)`, as a Boolean:
true when the file is pushed onto `filtered_file_paths`. -/
def keepFile {Filter Stats : Type} (env : ScanEnv Filter Stats) (names : List String)
    (column_ids : List Nat) (filters : List (Nat × Filter)) (file_path : String) : Bool :=
  match any_of (skip_file env names column_ids file_path) filters with
  | some false => true
  | _ => false

/-! ## The write-through cache (`SingleFileCachedWriteFileSystem`, lines 18-61) -/

/-- A byte of a file. -/
abbrev Byte := Nat

/-- The host file system `fs` that the cache wraps, over handles of type `H`: `OpenFile`
(path and flags), `Write` (the new state of the handle and the returned byte count) and
`GetAvailableDiskSpace` (absent when the optional index is invalid). -/
structure FileSystem (H : Type) where
  OpenFile : String → Nat → H
  Write : H → List Byte → H × Int
  GetAvailableDiskSpace : String → Option Nat

/-- The settings read by the cache: the switch `mooncake_enable_local_cache`, the cache
directory `x_mooncake_local_cache`, and the test `FileSystem::IsRemoteFile`. -/
structure CacheSettings where
  mooncake_enable_local_cache : Bool
  x_mooncake_local_cache : String
  IsRemoteFile : String → Bool

/-- The constant `x_min_disk_space = 1024 * 1024 * 1024`. -/
def x_min_disk_space : Nat := 1024 * 1024 * 1024

/-- The members of `SingleFileCachedWriteFileSystem`: the cache path, the cache handle
(`none` for a null `unique_ptr`), and the recording stream (`none` for a null pointer,
otherwise the bytes written to the `MemoryStream` it points to). -/
structure SingleFileCachedWriteFileSystem (H : Type) where
  cached_file_path : String
  cached_file : Option H
  stream : Option (List Byte)

/-- The constructor: `cached_file_path(x_mooncake_local_cache + file_name)`,
`stream(nullptr)`. -/
def SingleFileCachedWriteFileSystem.new {H : Type} (cfg : CacheSettings) (file_name : String) :
    SingleFileCachedWriteFileSystem H :=
  { cached_file_path := cfg.x_mooncake_local_cache ++ file_name, cached_file := none,
    stream := none }

/-- The method `OpenFile`: opens the cache handle when the path is remote, the cache is
enabled and the cache directory has more than `x_min_disk_space` bytes free; returns the
handle of the file itself. -/
def SingleFileCachedWriteFileSystem.OpenFile {H : Type} (fs : FileSystem H)
    (cfg : CacheSettings) (self : SingleFileCachedWriteFileSystem H) (path : String)
    (flags : Nat) : SingleFileCachedWriteFileSystem H × H :=
  let self1 :=
    if cfg.IsRemoteFile path && cfg.mooncake_enable_local_cache then
      match fs.GetAvailableDiskSpace cfg.x_mooncake_local_cache with
      | some disk_space =>
        if disk_space > x_min_disk_space then
          { self with cached_file := some (fs.OpenFile self.cached_file_path flags) }
        else self
      | none => self
    else self
  (self1, fs.OpenFile path flags)

/-- The method `Write`: the buffer goes to the recording stream when there is one, to the
cache handle when there is one, and to the handle of the file, whose byte count is
returned. -/
def SingleFileCachedWriteFileSystem.Write {H : Type} (fs : FileSystem H)
    (self : SingleFileCachedWriteFileSystem H) (handle : H) (buffer : List Byte) :
    SingleFileCachedWriteFileSystem H × H × Int :=
  let stream1 := self.stream.map (fun data => data ++ buffer)
  let cached_file1 := self.cached_file.map (fun cached => (fs.Write cached buffer).1)
  let r := fs.Write handle buffer
  ({ self with stream := stream1, cached_file := cached_file1 }, r.1, r.2)

/-- The method `StartRecording`: the pointer is set to the given `MemoryStream`. -/
def SingleFileCachedWriteFileSystem.StartRecording {H : Type}
    (self : SingleFileCachedWriteFileSystem H) (stream : List Byte) :
    SingleFileCachedWriteFileSystem H :=
  { self with stream := some stream }

/-- A sequence of `Write` calls on one file, each with its buffer. -/
def writeCalls {H : Type} (fs : FileSystem H) :
    SingleFileCachedWriteFileSystem H × H → List (List Byte) →
      SingleFileCachedWriteFileSystem H × H
  | st, [] => st
  | st, buffer :: rest =>
    let r := SingleFileCachedWriteFileSystem.Write fs st.1 st.2 buffer
    writeCalls fs (r.1, r.2.1) rest

/-- An in-memory host file system: a handle is the list of bytes written to the file, every
write is complete, and 2 GiB are free. -/
def memFs : FileSystem (List Byte) where
  OpenFile := fun _ _ => []
  Write := fun h buffer => (h ++ buffer, (buffer.length : Int))
  GetAvailableDiskSpace := fun _ => some (2 * 1024 * 1024 * 1024)

/-- Settings with the local cache enabled, every `s3://` path remote. -/
def cacheOn : CacheSettings where
  mooncake_enable_local_cache := true
  x_mooncake_local_cache := "/cache/"
  IsRemoteFile := fun path => path.toList.take 5 == "s3://".toList

/-! ## The data file writer (`DataFileWriter`, lines 63-110) -/

/-- The columnar engine as `DataFileWriter` uses it, over writers `W`, row collections `C`
and chunks `Chunk`. For the `ColumnDataCollection`: the empty collection, `Append`,
`Count`, `SizeInBytes`. For the `ParquetWriter`: its constructor (from the path of the
file), `Flush(collection)` (the writer and the collection afterwards), `Finalize()`,
`FileSize()`, and the fields `offset` and `total_written` of `GetWriter()`. `Flush` and
`Finalize` also give the buffers that the writer hands to `fs.Write` while they run, in
order. -/
structure ColumnarEngine (W C Chunk : Type) where
  emptyCollection : C
  Append : C → Chunk → C
  Count : C → Nat
  SizeInBytes : C → Nat
  create : String → W
  Flush : W → C → W × C × List (List Byte)
  Finalize : W → W × List (List Byte)
  FileSize : W → Nat
  offset : W → Nat
  total_written : W → Nat

/-- The flags the columnar writer opens its file with. -/
def writeFlags : Nat := 0

/-- The constant `x_file_size_bytes = 1 << 30`. -/
def x_file_size_bytes : Nat := 1 <<< 30

/-- The members of `DataFileWriter`: the cached file system `fs`, the accumulator
`collection`, the columnar `writer` together with the handle of the file it opened
through `fs`, and the `MemoryStream` member `stream` (its bytes up to its position). -/
structure DataFileWriter (H W C : Type) where
  fs : SingleFileCachedWriteFileSystem H
  handle : H
  collection : C
  writer : W
  stream : List Byte

/-- The constructor of `DataFileWriter`: `fs(context, file_name)`, an empty collection,
and the columnar writer on `path + file_name`, which opens that file through `fs`. -/
def DataFileWriter.new {H W C Chunk : Type} (hostfs : FileSystem H) (cfg : CacheSettings)
    (eng : ColumnarEngine W C Chunk) (path file_name : String) : DataFileWriter H W C :=
  let opened := SingleFileCachedWriteFileSystem.OpenFile hostfs cfg
    (SingleFileCachedWriteFileSystem.new cfg file_name) (path ++ file_name) writeFlags
  { fs := opened.1, handle := opened.2, collection := eng.emptyCollection,
    writer := eng.create (path ++ file_name), stream := [] }

/-- The method `DataFileWriter::Write`; the Boolean is its return value ("needs to rotate
to a new data file"). `ROW_GROUP_SIZE` is `duckdb::Storage::ROW_GROUP_SIZE`, so
`x_row_group_size_bytes` is `ROW_GROUP_SIZE * 1024`. -/
def DataFileWriter.Write {H W C Chunk : Type} (hostfs : FileSystem H)
    (eng : ColumnarEngine W C Chunk) (ROW_GROUP_SIZE : Nat) (self : DataFileWriter H W C)
    (chunk : Chunk) : DataFileWriter H W C × Bool :=
  let collection1 := eng.Append self.collection chunk
  if eng.Count collection1 ≥ ROW_GROUP_SIZE ∨
      eng.SizeInBytes collection1 ≥ ROW_GROUP_SIZE * 1024 then
    let flushed := eng.Flush self.writer collection1
    let written := writeCalls hostfs (self.fs, self.handle) flushed.2.2
    ({ self with fs := written.1, handle := written.2, collection := flushed.2.1,
                 writer := flushed.1 },
      decide (eng.FileSize flushed.1 ≥ x_file_size_bytes))
  else
    ({ self with collection := collection1 }, false)

/-- Subtraction `a - b` of two `idx_t` values (both below `2 ^ 64`): the difference, wrapped
around `2 ^ 64` when `b` is the larger. -/
def subU64 (a b : Nat) : Nat := if b ≤ a then a - b else a + 2 ^ 64 - b

/-- The method `DataFileWriter::Finalize`: the writer afterwards and the returned tuple
`(file_size, file_metadata)`; `none` when `NumericCast<uint32_t>` throws. -/
def DataFileWriter.Finalize {H W C Chunk : Type} (hostfs : FileSystem H)
    (eng : ColumnarEngine W C Chunk) (self : DataFileWriter H W C) :
    Option (DataFileWriter H W C × Nat × List Byte) :=
  let flushed := eng.Flush self.writer self.collection
  let written := writeCalls hostfs (self.fs, self.handle) flushed.2.2
  let offset := eng.offset flushed.1
  let total_written := eng.total_written flushed.1
  let recording := SingleFileCachedWriteFileSystem.StartRecording written.1 self.stream
  let finalized := eng.Finalize flushed.1
  let written1 := writeCalls hostfs (recording, written.2) finalized.2
  let stream1 := written1.1.stream.getD self.stream
  let file_size := (total_written + stream1.length) % 2 ^ 64
  (NumericCast_uint32_u (subU64 (subU64 stream1.length offset) 8)).map fun length =>
    ({ fs := written1.1, handle := written1.2, collection := flushed.2.1,
       writer := finalized.1, stream := stream1 },
      file_size, (stream1.drop offset).take length)

/-! ## The columnstore writer and the table (`ColumnstoreWriter`, `ColumnstoreTable`) -/

/-- What a run of the writer leaves behind: the two calls to the outside,
`metadata.DataFilesInsert` and `LakeAddFile`, with their arguments, and, to tell the data
files apart, the construction of each `DataFileWriter` (which opens the data file) and the
tuple that each `DataFileWriter::Finalize` returned. -/
inductive Event
  | NewDataFileWriter (path file_name : String)
  | DataFileFinalized (file_name : String) (file_size : Nat) (file_metadata : List Byte)
  | DataFilesInsert (oid : Nat) (file_name : String) (file_metadata : List Byte)
  | LakeAddFile (oid : Nat) (file_name : String) (file_size : Nat)
  deriving DecidableEq, Repr

/-- The state outside the writer: the events so far, and how many UUIDs have been
generated. -/
structure World where
  events : List Event
  uuids : Nat
  deriving DecidableEq, Repr

/-- Everything the write path is run against: the host file system, the cache settings,
the columnar engine, the constant `ROW_GROUP_SIZE`, and the UUID generator (`uuid k` is
the string of the `k`-th `UUID::GenerateRandomUUID()`). -/
structure Host (H W C Chunk : Type) where
  fs : FileSystem H
  cfg : CacheSettings
  eng : ColumnarEngine W C Chunk
  ROW_GROUP_SIZE : Nat
  uuid : Nat → String

/-- The members of `ColumnstoreWriter` that its methods read or write: `oid`, `path`,
`file_name` and `writer` (`none` for a null `unique_ptr`). The column types and names are
handed to the columnar writer as they are. -/
structure ColumnstoreWriter (H W C : Type) where
  oid : Nat
  path : String
  file_name : String
  writer : Option (DataFileWriter H W C)

/-- The constructor of `ColumnstoreWriter`. -/
def ColumnstoreWriter.new {H W C : Type} (oid : Nat) (path : String) : ColumnstoreWriter H W C :=
  { oid := oid, path := path, file_name := "", writer := none }

/-- The method `FinalizeDataFile`: finalize the data file writer, insert into the catalog,
drop the writer, notify the lake. -/
def ColumnstoreWriter.FinalizeDataFile {H W C Chunk : Type} (host : Host H W C Chunk)
    (self : ColumnstoreWriter H W C) (world : World) :
    Option (ColumnstoreWriter H W C × World) :=
  match self.writer with
  | none => none
  | some w =>
    match DataFileWriter.Finalize host.fs host.eng w with
    | none => none
    | some (_, file_size, file_metadata) =>
      some ({ self with writer := none },
        { world with events := world.events ++
            [Event.DataFileFinalized self.file_name file_size file_metadata,
             Event.DataFilesInsert self.oid self.file_name file_metadata,
             Event.LakeAddFile self.oid self.file_name file_size] })

/-- The method `ColumnstoreWriter::Write`. -/
def ColumnstoreWriter.Write {H W C Chunk : Type} (host : Host H W C Chunk)
    (self : ColumnstoreWriter H W C) (world : World) (chunk : Chunk) :
    Option (ColumnstoreWriter H W C × World) :=
  let opened : ColumnstoreWriter H W C × World :=
    match self.writer with
    | some _ => (self, world)
    | none =>
      let file_name := host.uuid world.uuids ++ ".parquet"
      ({ self with file_name := file_name,
                   writer := some (DataFileWriter.new host.fs host.cfg host.eng self.path
                     file_name) },
       { events := world.events ++ [Event.NewDataFileWriter self.path file_name],
         uuids := world.uuids + 1 })
  match opened.1.writer with
  | none => none
  | some w =>
    let r := DataFileWriter.Write host.fs host.eng host.ROW_GROUP_SIZE w chunk
    if r.2 then
      ColumnstoreWriter.FinalizeDataFile host { opened.1 with writer := some r.1 } opened.2
    else
      some ({ opened.1 with writer := some r.1 }, opened.2)

/-- The method `ColumnstoreWriter::Finalize`. -/
def ColumnstoreWriter.Finalize {H W C Chunk : Type} (host : Host H W C Chunk)
    (self : ColumnstoreWriter H W C) (world : World) :
    Option (ColumnstoreWriter H W C × World) :=
  match self.writer with
  | some _ => ColumnstoreWriter.FinalizeDataFile host self world
  | none => some (self, world)

/-- A call on a `ColumnstoreWriter`. -/
inductive WriterCall (Chunk : Type)
  | Write (chunk : Chunk)
  | Finalize

/-- A sequence of calls on a `ColumnstoreWriter`, none of which throws. -/
def ColumnstoreWriter.run {H W C Chunk : Type} (host : Host H W C Chunk) :
    ColumnstoreWriter H W C × World → List (WriterCall Chunk) →
      Option (ColumnstoreWriter H W C × World)
  | st, [] => some st
  | st, WriterCall.Write chunk :: rest =>
    match ColumnstoreWriter.Write host st.1 st.2 chunk with
    | none => none
    | some st1 => ColumnstoreWriter.run host st1 rest
  | st, WriterCall.Finalize :: rest =>
    match ColumnstoreWriter.Finalize host st.1 st.2 with
    | none => none
    | some st1 => ColumnstoreWriter.run host st1 rest

/-- The events of one data file from its creation to its registration: the writer is
constructed, finalized, inserted into the catalog, added to the lake. -/
def registration (oid : Nat) (path : String) (f : String × Nat × List Byte) : List Event :=
  [Event.NewDataFileWriter path f.1, Event.DataFileFinalized f.1 f.2.1 f.2.2,
   Event.DataFilesInsert oid f.1 f.2.2, Event.LakeAddFile oid f.1 f.2.1]

/-- The members of `ColumnstoreTable` on the insert path: `oid`, `path` and the lazily
constructed `writer`. -/
structure ColumnstoreTable (H W C : Type) where
  oid : Nat
  path : String
  writer : Option (ColumnstoreWriter H W C)

/-- A table on which no insert is in progress. -/
def ColumnstoreTable.new {H W C : Type} (oid : Nat) (path : String) : ColumnstoreTable H W C :=
  { oid := oid, path := path, writer := none }

/-- The method `ColumnstoreTable::Insert`. -/
def ColumnstoreTable.Insert {H W C Chunk : Type} (host : Host H W C Chunk)
    (self : ColumnstoreTable H W C) (world : World) (chunk : Chunk) :
    Option (ColumnstoreTable H W C × World) :=
  let writer : ColumnstoreWriter H W C :=
    match self.writer with
    | some w => w
    | none => ColumnstoreWriter.new self.oid self.path
  match ColumnstoreWriter.Write host writer world chunk with
  | none => none
  | some (writer1, world1) => some ({ self with writer := some writer1 }, world1)

/-- The method `ColumnstoreTable::FinalizeInsert`. -/
def ColumnstoreTable.FinalizeInsert {H W C Chunk : Type} (host : Host H W C Chunk)
    (self : ColumnstoreTable H W C) (world : World) :
    Option (ColumnstoreTable H W C × World) :=
  match self.writer with
  | some w =>
    match ColumnstoreWriter.Finalize host w world with
    | none => none
    | some (_, world1) => some ({ self with writer := none }, world1)
  | none => some (self, world)

/-- A sequence of `Insert` calls, one per chunk. -/
def ColumnstoreTable.insertAll {H W C Chunk : Type} (host : Host H W C Chunk) :
    ColumnstoreTable H W C × World → List Chunk → Option (ColumnstoreTable H W C × World)
  | st, [] => some st
  | st, chunk :: rest =>
    match ColumnstoreTable.Insert host st.1 st.2 chunk with
    | none => none
    | some st1 => ColumnstoreTable.insertAll host st1 rest

/-- A sequence of `Insert` calls followed by `FinalizeInsert`, on a table with no insert
in progress and with nothing yet recorded outside. -/
def ColumnstoreTable.insertThenFinalize {H W C Chunk : Type} (host : Host H W C Chunk)
    (oid : Nat) (path : String) (chunks : List Chunk) :
    Option (ColumnstoreTable H W C × World) :=
  match ColumnstoreTable.insertAll host (ColumnstoreTable.new oid path, ⟨[], 0⟩) chunks with
  | none => none
  | some st => ColumnstoreTable.FinalizeInsert host st.1 st.2

/-- The shape of the trace of a `ColumnstoreWriter` for table `oid` at `path`: the
registrations of the data files closed so far, one after the other, followed by the
creation of the open data file when there is one; the file names are the generated names,
in the order of generation. -/
def WriterInv {H W C Chunk : Type} (host : Host H W C Chunk) (oid : Nat) (path : String)
    (st : ColumnstoreWriter H W C × World) : Prop :=
  st.1.oid = oid ∧ st.1.path = path ∧
  ∃ files : List (String × Nat × List Byte),
    st.2.events = files.flatMap (registration oid path) ++
      (if st.1.writer.isSome then [Event.NewDataFileWriter path st.1.file_name] else []) ∧
    files.map Prod.fst ++ (if st.1.writer.isSome then [st.1.file_name] else []) =
      (List.range st.2.uuids).map (fun k => host.uuid k ++ ".parquet")

/-- The registration of one data file, in the words of the design: the data file writer
`w` of `cw` is finalized and returns `(file_size, metadata_blob)`; the outside sees, after
what it had seen in `world`, that return, then `DataFilesInsert(oid, file_name,
metadata_blob)`, then `LakeAddFile(oid, file_name, file_size)`, with the `oid` and the
`file_name` of `cw` and the very tuple that `DataFileWriter::Finalize` returned; no file
name is generated; afterwards `cw` has no writer and is otherwise as it was. -/
def Registers {H W C Chunk : Type} (host : Host H W C Chunk) (cw : ColumnstoreWriter H W C)
    (w : DataFileWriter H W C) (world : World) (st1 : ColumnstoreWriter H W C × World) : Prop :=
  ∃ w1 file_size file_metadata,
    DataFileWriter.Finalize host.fs host.eng w = some (w1, file_size, file_metadata) ∧
    st1.2.events = world.events ++
      [Event.DataFileFinalized cw.file_name file_size file_metadata,
       Event.DataFilesInsert cw.oid cw.file_name file_metadata,
       Event.LakeAddFile cw.oid cw.file_name file_size] ∧
    st1.2.uuids = world.uuids ∧
    st1.1 = { cw with writer := none }

/-- The file name that the next `Write` without an open writer generates. -/
def nextFileName {H W C Chunk : Type} (host : Host H W C Chunk) (world : World) : String :=
  host.uuid world.uuids ++ ".parquet"

/-- The data file writer that a `Write` without an open writer constructs: a new
`DataFileWriter` on the table's path and the newly generated file name. -/
def newFileWriter {H W C Chunk : Type} (host : Host H W C Chunk) (path : String)
    (world : World) : DataFileWriter H W C :=
  DataFileWriter.new host.fs host.cfg host.eng path (nextFileName host world)

/-- The chunk handed to the data file writer `w`: `w->Write(chunk)`, the writer afterwards
and the returned flag. -/
def handChunk {H W C Chunk : Type} (host : Host H W C Chunk) (w : DataFileWriter H W C)
    (chunk : Chunk) : DataFileWriter H W C × Bool :=
  DataFileWriter.Write host.fs host.eng host.ROW_GROUP_SIZE w chunk

/-- The outside after a new data file writer was constructed: one more file name has been
generated and the construction has been seen. -/
def opened {H W C Chunk : Type} (host : Host H W C Chunk) (path : String) (world : World) :
    World :=
  { events := world.events ++ [Event.NewDataFileWriter path (nextFileName host world)],
    uuids := world.uuids + 1 }

/-- What one call does, in the words of the design, between the state `st` before it and
the state `st1` after it.
* `Finalize` with no writer open changes nothing; with a writer open it registers that
  writer's file.
* `Write` with a writer open hands the chunk to that writer; when the writer asks for
  rotation its file is registered, otherwise the writer stays open and nothing is seen
  outside.
* `Write` with no writer open generates a new file name, constructs a new
  `DataFileWriter` for it (seen outside as `NewDataFileWriter`), and goes on as above with
  the new writer. -/
def CallEffect {H W C Chunk : Type} (host : Host H W C Chunk)
    (st : ColumnstoreWriter H W C × World) :
    WriterCall Chunk → ColumnstoreWriter H W C × World → Prop
  | WriterCall.Finalize, st1 =>
    match st.1.writer with
    | none => st1 = st
    | some w => Registers host st.1 w st.2 st1
  | WriterCall.Write chunk, st1 =>
    match st.1.writer with
    | some w =>
      if (handChunk host w chunk).2 = true then
        Registers host st.1 (handChunk host w chunk).1 st.2 st1
      else
        st1 = ({ st.1 with writer := some (handChunk host w chunk).1 }, st.2)
    | none =>
      if (handChunk host (newFileWriter host st.1.path st.2) chunk).2 = true then
        Registers host { st.1 with file_name := nextFileName host st.2 }
          (handChunk host (newFileWriter host st.1.path st.2) chunk).1
          (opened host st.1.path st.2) st1
      else
        st1 = ({ st.1 with
                  file_name := nextFileName host st.2,
                  writer := some (handChunk host (newFileWriter host st.1.path st.2) chunk).1 },
               opened host st.1.path st.2)

/-- The state of a table on the insert path, for table `oid` at `path`: either no writer
exists and nothing has happened outside, or the writer exists, its trace has the shape
`WriterInv`, and at least one file name has been generated. -/
def TableInv {H W C Chunk : Type} (host : Host H W C Chunk) (oid : Nat) (path : String)
    (st : ColumnstoreTable H W C × World) : Prop :=
  st.1.oid = oid ∧ st.1.path = path ∧
  match st.1.writer with
  | none => st.2 = ⟨[], 0⟩
  | some cw => WriterInv host oid path (cw, st.2) ∧ 1 ≤ st.2.uuids

/-! ### A small columnar engine to run the write path on -/

/-- The buffered writer of the small engine: the bytes not yet handed to the file system,
and the count of those already handed over. -/
structure DemoWriter where
  buffer : List Byte
  total_written : Nat
  deriving DecidableEq, Repr

/-- A small columnar engine: a chunk is a list of one-byte rows, the writer starts with
the four magic bytes in its buffer, a flush of a non-empty collection hands the buffer
and the rows to the file system, and finalize writes a two-byte footer, its four-byte
length and the magic bytes. -/
def demoEngine : ColumnarEngine DemoWriter (List Nat) (List Nat) where
  emptyCollection := []
  Append := fun c chunk => c ++ chunk
  Count := fun c => c.length
  SizeInBytes := fun c => 8 * c.length
  create := fun _ => ⟨[80, 65, 82, 49], 0⟩
  Flush := fun w c =>
    if c.isEmpty then (w, c, [])
    else (⟨[], w.total_written + (w.buffer.length + c.length)⟩, [], [w.buffer ++ c])
  Finalize := fun w =>
    (⟨[], w.total_written + (w.buffer.length + 10)⟩,
      [w.buffer ++ [21, 0, 2, 0, 0, 0, 80, 65, 82, 49]])
  FileSize := fun w => w.total_written + w.buffer.length
  offset := fun w => w.buffer.length
  total_written := fun w => w.total_written

/-- The small engine on the in-memory file system, with row groups of four rows and the
UUIDs `u0`, `u1`, ... -/
def demoHost : Host (List Byte) DemoWriter (List Nat) (List Nat) where
  fs := memFs
  cfg := cacheOn
  eng := demoEngine
  ROW_GROUP_SIZE := 4
  uuid := fun k => "u" ++ toString k

/-! ## Column-id de-duplication (`ColumnstoreScanInitGlobal`, lines 187-204) -/

/-- The contents of `unordered_map<column_t, idx_t> column_ids_map`: the value stored under
a key, `none` for a key that is not in the map (`count(key) == 0`). -/
abbrev ColumnIdsMap := Nat → Option Nat

/-- The assignment `column_ids_map[key] = value`. -/
def ColumnIdsMap.set (m : ColumnIdsMap) (key value : Nat) : ColumnIdsMap :=
  fun k => if k = key then some value else m k

/-- The value of the expression `column_ids_map[key]` on the right of an assignment: the
stored value, and `0` for a key that is not in the map (which the subscript inserts with a
value-initialised index). -/
def ColumnIdsMap.subscript (m : ColumnIdsMap) (key : Nat) : Nat :=
  (m key).getD 0

/-- First loop of `ColumnstoreScanInitGlobal` (lines 191-196) over the rest of
`input.column_ids`, with the map and the vector `column_ids` built so far. -/
def dedupLoop : List Nat → ColumnIdsMap → List Nat → ColumnIdsMap × List Nat
  | [], column_ids_map, column_ids => (column_ids_map, column_ids)
  | x :: rest, column_ids_map, column_ids =>
    if (column_ids_map x).isNone then
      dedupLoop rest (column_ids_map.set x column_ids.length) (column_ids ++ [x])
    else
      dedupLoop rest column_ids_map column_ids

/-- Second loop of `ColumnstoreScanInitGlobal` (lines 198-200) over the copy of
`input.projection_ids`; the subscript into `input.column_ids` is bounds-checked. -/
def remapLoop (input_column_ids : List Nat) (column_ids_map : ColumnIdsMap) :
    List Nat → Option (List Nat)
  | [] => some []
  | p :: rest =>
    match input_column_ids[p]? with
    | none => none
    | some column_id =>
      match remapLoop input_column_ids column_ids_map rest with
      | none => none
      | some remapped => some (column_ids_map.subscript column_id :: remapped)

/-- The two vectors `column_ids` and `projection_ids` that `ColumnstoreScanInitGlobal`
passes on to the Parquet scan in `new_input`. -/
def ColumnstoreScanInitGlobal (input_column_ids input_projection_ids : List Nat) :
    Option (List Nat × List Nat) :=
  let built := dedupLoop input_column_ids (fun _ => none) []
  match remapLoop input_column_ids built.1 input_projection_ids with
  | none => none
  | some projection_ids => some (built.2, projection_ids)

/-- The distinct values of a list in the order of their first occurrence: the head, then
the distinct values of the tail without the head. -/
def firstOccurrences : List Nat → List Nat
  | [] => []
  | x :: rest => x :: (firstOccurrences rest).filter (fun y => decide (y ≠ x))

/-- The map built so far agrees with the vector built so far: its keys are the entries of
the vector, and the value under a key is a position of that key in the vector. -/
def MapAgrees (m : ColumnIdsMap) (column_ids : List Nat) : Prop :=
  (∀ k, (m k).isSome = true ↔ k ∈ column_ids) ∧ ∀ k i, m k = some i → column_ids[i]? = some k

end Columnstore

namespace Columnstore

/-! ## Row-id round trip -/

theorem NumericCast_uint32_eq (x : Int) (h0 : 0 ≤ x) (h1 : x < 4294967296) :
    NumericCast_uint32 x = some x.toNat := by
  unfold NumericCast_uint32
  rw [if_pos ⟨h0, h1⟩]

theorem rowId_eq (file_number : Nat) (frn : Int) (hf : file_number < 2 ^ 31)
    (h0 : 0 ≤ frn) (h1 : frn < 4294967296) :
    rowId file_number frn = some ((file_number * 2 ^ 32 + frn.toNat : Nat) : Int) := by
  have hn : frn.toNat < 2 ^ 32 := by omega
  have hlt : file_number * 2 ^ 32 + frn.toNat < 2 ^ 63 := by omega
  have e1 : file_number * 2 ^ 32 % 2 ^ 64 = file_number * 2 ^ 32 := Nat.mod_eq_of_lt (by omega)
  have e2 : (file_number * 2 ^ 32 + frn.toNat) % 2 ^ 64 = file_number * 2 ^ 32 + frn.toNat :=
    Nat.mod_eq_of_lt (by omega)
  rw [rowId, NumericCast_uint32_eq frn h0 h1]
  show some (toInt64 _) = _
  rw [Nat.shiftLeft_eq, e1, e2, toInt64, e2, if_pos hlt]

/-- C1. Row-id round trip: for `file_number < 2^31` and `0 <= file_row_number < 2^32` the
row id computed by `FinalizeChunk`, `(file_number << 32) + uint32(file_row_number)` stored
as a signed 64-bit integer, equals `(file_number << 32) | uint32(file_row_number)`, and
decoding gives `row_id >> 32 = file_number` and `row_id & 0xFFFFFFFF = file_row_number`. -/
theorem rowId_roundtrip (file_number : Nat) (file_row_number : Int)
    (hf : file_number < 2 ^ 31) (h0 : 0 ≤ file_row_number)
    (h1 : file_row_number < 4294967296) :
    ∃ row_id : Int, rowId file_number file_row_number = some row_id ∧
      row_id = (((file_number <<< 32) ||| file_row_number.toNat : Nat) : Int) ∧
      rowIdFileNumber row_id = (file_number : Int) ∧
      rowIdFileRowNumber row_id = file_row_number := by
  have hn : file_row_number.toNat < 2 ^ 32 := by omega
  refine ⟨_, rowId_eq file_number file_row_number hf h0 h1, ?_, ?_, ?_⟩
  · rw [Nat.shiftLeft_eq, Nat.mul_comm file_number, Nat.mul_add_lt_is_or hn]
  · show Int.shiftRight (Int.ofNat (file_number * 2 ^ 32 + file_row_number.toNat)) 32 = _
    have : (file_number * 2 ^ 32 + file_row_number.toNat) / 2 ^ 32 = file_number := by omega
    rw [Int.shiftRight, Nat.shiftRight_eq_div_pow, this]
    rfl
  · show Int.land (Int.ofNat (file_number * 2 ^ 32 + file_row_number.toNat))
      (Int.ofNat (2 ^ 32 - 1)) = _
    have : (file_number * 2 ^ 32 + file_row_number.toNat) % 2 ^ 32 = file_row_number.toNat := by
      omega
    rw [Int.land, Nat.and_pow_two_sub_one_eq_mod, this]
    exact Int.toNat_of_nonneg h0

theorem rowId_roundtrip_witness :
    ∃ row_id : Int, rowId 3 5 = some row_id ∧
      row_id = (((3 <<< 32) ||| (5 : Int).toNat : Nat) : Int) ∧
      rowIdFileNumber row_id = ((3 : Nat) : Int) ∧
      rowIdFileRowNumber row_id = 5 :=
  rowId_roundtrip 3 5 (by decide) (by decide) (by decide)

/-! ## Deletion-vector filtering -/

theorem NumericCast_uint32_u_eq (x : Int) (h0 : 0 ≤ x) (h1 : x < 4294967296) :
    NumericCast_uint32_u (toUInt64 x) = some x.toNat := by
  have e : toUInt64 x = x.toNat := by
    unfold toUInt64
    rw [Int.emod_eq_of_lt h0 (by omega)]
  have hlt : x.toNat < 2 ^ 32 := by omega
  rw [e, NumericCast_uint32_u, if_pos hlt]

theorem pushBack_perm (m : ChunkToRows) (k i : Nat) :
    ((pushBack m k i).flatMap Prod.snd).Perm (m.flatMap Prod.snd ++ [i]) := by
  induction m with
  | nil => simp [pushBack]
  | cons e rest ih =>
    obtain ⟨k1, rows⟩ := e
    unfold pushBack
    split
    · simp only [List.flatMap_cons, List.append_assoc]
      exact List.Perm.append_left rows List.perm_append_comm
    · simp only [List.flatMap_cons, List.append_assoc]
      exact List.Perm.append_left rows ih

theorem pushBack_keyed (Q : Nat → Nat → Prop) (m : ChunkToRows) (k i : Nat)
    (hm : ∀ e ∈ m, ∀ r ∈ e.2, Q e.1 r) (hi : Q k i) :
    ∀ e ∈ pushBack m k i, ∀ r ∈ e.2, Q e.1 r := by
  induction m with
  | nil =>
    intro e he r hr
    simp only [pushBack, List.mem_singleton] at he
    subst he
    simp only [List.mem_singleton] at hr
    subst hr
    exact hi
  | cons e0 rest ih =>
    obtain ⟨k1, rows⟩ := e0
    have hrest : ∀ e ∈ rest, ∀ r ∈ e.2, Q e.1 r := fun e he => hm e (List.mem_cons_of_mem _ he)
    have hhead : ∀ r ∈ rows, Q k1 r := hm (k1, rows) (List.mem_cons_self _ _)
    intro e he r hr
    unfold pushBack at he
    split at he
    · rename_i hk
      rcases List.mem_cons.1 he with h | h
      · subst h
        rcases List.mem_append.1 hr with h1 | h1
        · exact hhead r h1
        · simp only [List.mem_singleton] at h1
          subst h1
          show Q k1 r
          rw [hk]
          exact hi
      · exact hrest e h r hr
    · rcases List.mem_cons.1 he with h | h
      · subst h
        exact hhead r hr
      · exact ih hrest e h r hr

/-- The first loop succeeds on file row numbers in `[0, 2^32)`; the map it builds holds
every row index once, each under the chunk index of its file row number. -/
theorem chunkToRowsLoop_spec (VS : Nat) (data : List Int) :
    ∀ (xs : List Int) (i : Nat) (m : ChunkToRows),
      (∀ x ∈ xs, 0 ≤ x ∧ x < 4294967296) →
      (∀ j, j < xs.length → data[i + j]? = xs[j]?) →
      (∀ e ∈ m, ∀ r ∈ e.2, r < data.length ∧ (data.getD r 0).toNat / VS = e.1) →
      ∃ m1, chunkToRowsLoop VS xs i m = some m1 ∧
        (m1.flatMap Prod.snd).Perm (m.flatMap Prod.snd ++ List.range' i xs.length) ∧
        ∀ e ∈ m1, ∀ r ∈ e.2, r < data.length ∧ (data.getD r 0).toNat / VS = e.1 := by
  intro xs
  induction xs with
  | nil =>
    intro i m _ _ hm
    exact ⟨m, rfl, by simp, hm⟩
  | cons x xs ih =>
    intro i m hx hd hm
    have hx0 := hx x (List.mem_cons_self _ _)
    have hxi : data[i]? = some x := by simpa using hd 0 (by simp)
    have hil : i < data.length := by
      rcases Nat.lt_or_ge i data.length with h | h
      · exact h
      · rw [List.getElem?_eq_none h] at hxi
        cases hxi
    have hgd : data.getD i 0 = x := by
      rw [List.getD_eq_getElem?_getD, hxi]
      rfl
    have hm1 : ∀ e ∈ pushBack m (x.toNat / VS) i, ∀ r ∈ e.2,
        r < data.length ∧ (data.getD r 0).toNat / VS = e.1 :=
      pushBack_keyed (fun k r => r < data.length ∧ (data.getD r 0).toNat / VS = k) m _ i hm
        ⟨hil, by rw [hgd]⟩
    have hd1 : ∀ j, j < xs.length → data[i + 1 + j]? = xs[j]? := by
      intro j hj
      have := hd (j + 1) (by simpa using hj)
      rw [List.getElem?_cons_succ] at this
      rw [← this]
      congr 1
      omega
    obtain ⟨m1, h1, h2, h3⟩ := ih (i + 1) _ (fun y hy => hx y (List.mem_cons_of_mem _ hy)) hd1 hm1
    refine ⟨m1, ?_, ?_, h3⟩
    · rw [chunkToRowsLoop, NumericCast_uint32_u_eq x hx0.1 hx0.2]
      exact h1
    · refine h2.trans ?_
      have hp := pushBack_perm m (x.toNat / VS) i
      have : ((pushBack m (x.toNat / VS) i).flatMap Prod.snd ++ List.range' (i + 1) xs.length).Perm
          ((m.flatMap Prod.snd ++ [i]) ++ List.range' (i + 1) xs.length) :=
        List.Perm.append_right _ hp
      refine this.trans ?_
      rw [List.append_assoc]
      simp [List.range'_succ]

/-- The inner loop appends to the selection the rows of the entry whose bit is not set, in
the order they are stored. -/
theorem selectRows_spec (VS : Nat) (data : List Int) (dv : DeletionVector)
    (hdata : ∀ x ∈ data, 0 ≤ x ∧ x < 4294967296) :
    ∀ (rows sel : List Nat), (∀ r ∈ rows, r < data.length) →
      selectRows VS data dv rows sel =
        some (sel ++ rows.filter (fun r => !dv.IsDeleted ((data.getD r 0).toNat % VS))) := by
  intro rows
  induction rows with
  | nil => intro sel _; simp [selectRows]
  | cons r rest ih =>
    intro sel hr
    have hrl : r < data.length := hr r (List.mem_cons_self _ _)
    have hget : data[r]? = some data[r] := List.getElem?_eq_getElem hrl
    have hgd : data.getD r 0 = data[r] := List.getD_eq_getElem data 0 hrl
    have hx := hdata data[r] (List.getElem_mem hrl)
    rw [selectRows, hget]
    simp only
    rw [NumericCast_uint32_u_eq _ hx.1 hx.2]
    simp only
    rw [ih _ (fun y hy => hr y (List.mem_cons_of_mem _ hy)), List.filter_cons, hgd]
    by_cases hb : dv.IsDeleted (data[r].toNat % VS) = true
    · simp [hb]
    · simp [hb]

/-- The outer loop appends, entry by entry, the rows whose deletion-vector bit is not
set. -/
theorem deletionsLoop_spec (VS : Nat) (data : List Int)
    (FetchDV : String → Nat → DeletionVector) (file_name : String)
    (hdata : ∀ x ∈ data, 0 ≤ x ∧ x < 4294967296) :
    ∀ (m : ChunkToRows) (sel : List Nat),
      (∀ e ∈ m, ∀ r ∈ e.2, r < data.length ∧ (data.getD r 0).toNat / VS = e.1) →
      deletionsLoop VS data FetchDV file_name m sel =
        some (sel ++ (m.flatMap Prod.snd).filter
          (fun r => !dvBit VS FetchDV file_name (data.getD r 0))) := by
  intro m
  induction m with
  | nil => intro sel _; simp [deletionsLoop]
  | cons e rest ih =>
    intro sel hm
    obtain ⟨k, rows⟩ := e
    have hk : ∀ r ∈ rows, r < data.length ∧ (data.getD r 0).toNat / VS = k :=
      hm (k, rows) (List.mem_cons_self _ _)
    rw [deletionsLoop, selectRows_spec VS data _ hdata rows sel (fun r hr => (hk r hr).1)]
    simp only
    rw [ih _ (fun e he => hm e (List.mem_cons_of_mem _ he)), List.flatMap_cons,
      List.filter_append, List.append_assoc]
    congr 3
    show List.filter _ rows = List.filter _ rows
    apply List.filter_congr
    intro r hr
    simp only [dvBit, (hk r hr).2]

theorem map_getD_range (data : List Int) :
    (List.range data.length).map (fun i => data.getD i 0) = data := by
  apply List.ext_getElem
  · simp
  · intro n h1 h2
    simp [List.getD_eq_getElem?_getD, h2]

theorem survivors_length (VS : Nat) (FetchDV : String → Nat → DeletionVector)
    (file_name : String) (data : List Int) :
    (survivors VS FetchDV file_name data).length =
      data.length - data.countP (fun x => dvBit VS FetchDV file_name x) := by
  have h1 : (survivors VS FetchDV file_name data).length =
      data.countP (fun x => !dvBit VS FetchDV file_name x) := by
    unfold survivors
    rw [← List.countP_eq_length_filter]
    conv_rhs => rw [← map_getD_range data, List.countP_map]
    rfl
  have h2 := List.length_eq_countP_add_countP (fun x => dvBit VS FetchDV file_name x) data
  have h3 : data.countP (fun a => decide ¬(dvBit VS FetchDV file_name a = true)) =
      data.countP (fun x => !dvBit VS FetchDV file_name x) := by
    congr 1
    funext a
    cases dvBit VS FetchDV file_name a <;> rfl
  omega

theorem ApplyDeletions_eq (VS : Nat) (iterate : ChunkToRows → ChunkToRows)
    (hiter : ∀ m, (iterate m).Perm m) (FetchDV : String → Nat → DeletionVector)
    (file_paths : List String) (file_list_idx : Nat) (file_name : String)
    (hfile : file_paths[file_list_idx]? = some file_name)
    (data : List Int) (hdata : ∀ x ∈ data, 0 ≤ x ∧ x < 4294967296) :
    ∃ sel, ApplyDeletions VS iterate FetchDV file_paths file_list_idx data = some sel ∧
      sel.Perm (survivors VS FetchDV file_name data) := by
  obtain ⟨m, hm1, hm2, hm3⟩ := chunkToRowsLoop_spec VS data data 0 []
    hdata (fun j _ => by rw [Nat.zero_add]) (fun e he => by cases he)
  have hm3i : ∀ e ∈ iterate m, ∀ r ∈ e.2,
      r < data.length ∧ (data.getD r 0).toNat / VS = e.1 :=
    fun e he => hm3 e ((hiter m).mem_iff.1 he)
  refine ⟨((iterate m).flatMap Prod.snd).filter
    (fun r => !dvBit VS FetchDV file_name (data.getD r 0)), ?_, ?_⟩
  · rw [ApplyDeletions, hfile]
    simp only
    rw [hm1]
    simp only
    rw [deletionsLoop_spec VS data FetchDV file_name hdata (iterate m) [] hm3i, List.nil_append]
  · unfold survivors
    apply List.Perm.filter
    refine (List.Perm.flatMap_right Prod.snd (hiter m)).trans ?_
    refine hm2.trans ?_
    simp [List.range_eq_range']

/-- C2. Deletion-vector filtering is exact: for a chunk whose file row numbers lie in
`[0, 2^32)` and any deletion vectors, whatever order the hash map enumerates its entries
in, the row indices `ApplyDeletions` keeps are exactly the indices `i` whose bit
`frn[i] % VECTOR_SIZE` in the deletion vector of chunk `frn[i] / VECTOR_SIZE` is not set,
each exactly once; so the number of survivors is `N` minus the number of rows whose bit is
set. -/
theorem ApplyDeletions_exact (VS : Nat) (iterate : ChunkToRows → ChunkToRows)
    (hiter : ∀ m, (iterate m).Perm m) (FetchDV : String → Nat → DeletionVector)
    (file_paths : List String) (file_list_idx : Nat) (file_name : String)
    (hfile : file_paths[file_list_idx]? = some file_name)
    (data : List Int) (hdata : ∀ x ∈ data, 0 ≤ x ∧ x < 4294967296) :
    ∃ sel, ApplyDeletions VS iterate FetchDV file_paths file_list_idx data = some sel ∧
      (∀ i, i ∈ sel ↔ i < data.length ∧ dvBit VS FetchDV file_name (data.getD i 0) = false) ∧
      sel.Nodup ∧
      sel.length = data.length - data.countP (fun x => dvBit VS FetchDV file_name x) := by
  obtain ⟨sel, h1, h2⟩ := ApplyDeletions_eq VS iterate hiter FetchDV file_paths file_list_idx
    file_name hfile data hdata
  refine ⟨sel, h1, ?_, ?_, ?_⟩
  · intro i
    rw [h2.mem_iff]
    simp [survivors]
  · rw [h2.nodup_iff]
    exact List.Nodup.filter _ (List.nodup_range _)
  · rw [h2.length_eq, survivors_length]

theorem ApplyDeletions_exact_witness :
    ∃ sel, ApplyDeletions 2048 List.reverse evenDeleted ["a", "b"] 1
        [2046, 2047, 2048, 2049] = some sel ∧
      (∀ i, i ∈ sel ↔ i < [2046, 2047, 2048, (2049 : Int)].length ∧
        dvBit 2048 evenDeleted "b" ([2046, 2047, 2048, (2049 : Int)].getD i 0) = false) ∧
      sel.Nodup ∧
      sel.length = [2046, 2047, 2048, (2049 : Int)].length -
        [2046, 2047, 2048, (2049 : Int)].countP (fun x => dvBit 2048 evenDeleted "b" x) :=
  ApplyDeletions_exact 2048 List.reverse (fun m => List.reverse_perm m) evenDeleted
    ["a", "b"] 1 "b" rfl [2046, 2047, 2048, 2049] (by decide)

/-! ## Row order -/

/-- C3 (evaluation at the failing input). A two-row chunk with file row numbers 2047 and
2048 and no deleted row, the hash map enumerating chunk index 1 before chunk index 0:
`ApplyDeletions` selects row 1 before row 0, so the slice swaps the two rows. -/
theorem ApplyDeletions_reorders :
    ApplyDeletions 2048 List.reverse noDeletions ["f"] 0 [2047, 2048] = some [1, 0] ∧
      Slice ["row0", "row1"] [1, 0] = ["row1", "row0"] ∧
      ¬ List.Pairwise (fun a b : Nat => a < b) [1, 0] := by
  refine ⟨by decide, by decide, by decide⟩



/-! ## Statistics pruning -/

theorem skip_file_spec {Filter Stats : Type} (env : ScanEnv Filter Stats) (names : List String)
    (column_ids : List Nat) (file_path : String) (e : Nat × Filter) (c : Nat)
    (hc : column_ids[e.1]? = some c) (hn : c < names.length) :
    ∃ b, skip_file env names column_ids file_path e = some b ∧
      (b = true ↔ ∃ c name stats, column_ids[e.1]? = some c ∧ names[c]? = some name ∧
        env.columnstore_stats (env.GetFileName file_path) name = some stats ∧
        env.CheckStatistics e.2 stats = FilterPropagateResult.FILTER_ALWAYS_FALSE) := by
  have hname : names[c]? = some names[c] := List.getElem?_eq_getElem hn
  have hval : skip_file env names column_ids file_path e =
      match env.columnstore_stats (env.GetFileName file_path) names[c] with
      | none => some false
      | some stats => some (decide
          (env.CheckStatistics e.2 stats = FilterPropagateResult.FILTER_ALWAYS_FALSE)) := by
    unfold skip_file
    rw [hc]
    simp only
    rw [hname]
  cases hs : env.columnstore_stats (env.GetFileName file_path) names[c] with
  | none =>
    rw [hs] at hval
    refine ⟨false, hval, ?_⟩
    constructor
    · intro h; cases h
    · rintro ⟨c1, name, stats, h1, h2, h3, _⟩
      rw [hc] at h1
      cases h1
      rw [hname] at h2
      cases h2
      rw [hs] at h3
      cases h3
  | some stats =>
    rw [hs] at hval
    refine ⟨_, hval, ?_⟩
    constructor
    · intro h
      exact ⟨c, names[c], stats, hc, hname, hs, of_decide_eq_true h⟩
    · rintro ⟨c1, name, stats1, h1, h2, h3, h4⟩
      rw [hc] at h1
      cases h1
      rw [hname] at h2
      cases h2
      rw [hs] at h3
      cases h3
      exact decide_eq_true h4

theorem any_of_skip_file_spec {Filter Stats : Type} (env : ScanEnv Filter Stats)
    (names : List String) (column_ids : List Nat) (file_path : String) :
    ∀ (filters : List (Nat × Filter)), FiltersInRange names column_ids filters →
      ∃ b, any_of (skip_file env names column_ids file_path) filters = some b ∧
        (b = true ↔ Dropped env names column_ids filters file_path) := by
  intro filters
  induction filters with
  | nil =>
    intro _
    refine ⟨false, rfl, ?_⟩
    constructor
    · intro h; cases h
    · rintro ⟨e, he, _⟩
      cases he
  | cons e rest ih =>
    intro hwf
    obtain ⟨c, hc, hn⟩ := hwf e (List.mem_cons_self _ _)
    obtain ⟨b0, hb0, hb0iff⟩ := skip_file_spec env names column_ids file_path e c hc hn
    obtain ⟨b1, hb1, hb1iff⟩ := ih (fun e1 he1 => hwf e1 (List.mem_cons_of_mem _ he1))
    cases b0 with
    | true =>
      refine ⟨true, ?_, ?_⟩
      · rw [any_of, hb0]
      · constructor
        · intro _
          exact ⟨e, List.mem_cons_self _ _, hb0iff.1 rfl⟩
        · intro _; rfl
    | false =>
      refine ⟨b1, ?_, ?_⟩
      · rw [any_of, hb0]
        exact hb1
      · constructor
        · intro h
          obtain ⟨e1, he1, h1⟩ := hb1iff.1 h
          exact ⟨e1, List.mem_cons_of_mem _ he1, h1⟩
        · rintro ⟨e1, he1, h1⟩
          rcases List.mem_cons.1 he1 with h | h
          · subst h
            have := hb0iff.2 h1
            cases this
          · exact hb1iff.2 ⟨e1, h, h1⟩

theorem keepFile_iff {Filter Stats : Type} (env : ScanEnv Filter Stats)
    (names : List String) (column_ids : List Nat) (filters : List (Nat × Filter))
    (hwf : FiltersInRange names column_ids filters) (file_path : String) :
    keepFile env names column_ids filters file_path = true ↔
      ¬ Dropped env names column_ids filters file_path := by
  obtain ⟨b, hb, hbiff⟩ := any_of_skip_file_spec env names column_ids file_path filters hwf
  unfold keepFile
  rw [hb]
  cases b with
  | true => simp [hbiff.1 rfl]
  | false =>
    have : ¬ Dropped env names column_ids filters file_path := fun h => by
      have := hbiff.2 h
      cases this
    simp [this]

/-- The loop keeps, in order, the files that pass the test, each with its index. -/
theorem pushdownLoop_eq {Filter Stats : Type} (env : ScanEnv Filter Stats)
    (names : List String) (column_ids : List Nat) (filters : List (Nat × Filter))
    (hwf : FiltersInRange names column_ids filters) :
    ∀ (ps : List String) (n : Nat) (fp : List String) (fn : List Nat),
      pushdownLoop env names column_ids filters ps n fp fn =
        some (fp ++ ((ps.enumFrom n).filter
                (fun q => keepFile env names column_ids filters q.2)).map Prod.snd,
              fn ++ ((ps.enumFrom n).filter
                (fun q => keepFile env names column_ids filters q.2)).map Prod.fst) := by
  intro ps
  induction ps with
  | nil => intro n fp fn; simp [pushdownLoop]
  | cons p rest ih =>
    intro n fp fn
    obtain ⟨b, hb, _⟩ := any_of_skip_file_spec env names column_ids p filters hwf
    have hk : keepFile env names column_ids filters p = !b := by
      unfold keepFile
      rw [hb]
      cases b <;> rfl
    rw [pushdownLoop, hb, List.enumFrom_cons, List.filter_cons]
    simp only [hk]
    cases b with
    | true =>
      simp only [ih]
      simp
    | false =>
      simp only [ih]
      simp

theorem keptPairs_map_snd {Filter Stats : Type} (env : ScanEnv Filter Stats)
    (names : List String) (column_ids : List Nat) (filters : List (Nat × Filter))
    (ps : List String) :
    ((ps.enum).filter (fun q => keepFile env names column_ids filters q.2)).map Prod.snd =
      ps.filter (keepFile env names column_ids filters) := by
  conv_rhs => rw [← List.enum_map_snd ps, List.filter_map]
  rfl

theorem filter_eq_of_length_ge {α : Type} (p : α → Bool) (l : List α)
    (h : ¬ (l.filter p).length < l.length) : l.filter p = l := by
  rw [List.filter_eq_self]
  intro a ha
  by_contra hp
  exact h (List.length_filter_lt_length_iff_exists.2 ⟨a, ha, hp⟩)

/-- The outcome of `DynamicFilterPushdown` on a reader whose `file_numbers` is empty, in
closed form: the kept (index, path) pairs are the enumerated file list filtered by the
loop's test. -/
theorem DynamicFilterPushdown_eq {Filter Stats : Type} (env : ScanEnv Filter Stats)
    (file_paths names : List String) (column_ids : List Nat) (filters : List (Nat × Filter))
    (hwf : FiltersInRange names column_ids filters) :
    ∃ result, DynamicFilterPushdown env [] file_paths names column_ids filters =
        some (((file_paths.enum).filter
          (fun q => keepFile env names column_ids filters q.2)).map Prod.fst, result) ∧
      keptPaths file_paths result = ((file_paths.enum).filter
          (fun q => keepFile env names column_ids filters q.2)).map Prod.snd := by
  refine ⟨if (((file_paths.enum).filter
      (fun q => keepFile env names column_ids filters q.2)).map Prod.snd).length <
        file_paths.length
    then some (((file_paths.enum).filter
      (fun q => keepFile env names column_ids filters q.2)).map Prod.snd) else none, ?_, ?_⟩
  · unfold DynamicFilterPushdown
    rw [pushdownLoop_eq env names column_ids filters hwf]
    simp only [List.nil_append]
    rfl
  · unfold keptPaths
    split
    · rfl
    · rename_i h
      show file_paths = _
      have h1 : ¬ (file_paths.filter (keepFile env names column_ids filters)).length <
          file_paths.length := by
        rw [← keptPairs_map_snd]
        exact h
      rw [keptPairs_map_snd env names column_ids filters file_paths,
        filter_eq_of_length_ge _ _ h1]

/-- C4. Pruning does not renumber files: after `DynamicFilterPushdown` on a reader whose
`file_numbers` is empty, `file_numbers` has the length of the list of kept paths, is
strictly increasing, the `k`-th kept path is the original list's path at index
`file_numbers[k]`, and that index is the file number `FinalizeChunk` packs into the row
ids of the `k`-th file of the pruned list. -/
theorem DynamicFilterPushdown_keeps_file_numbers {Filter Stats : Type}
    (env : ScanEnv Filter Stats) (file_paths names : List String) (column_ids : List Nat)
    (filters : List (Nat × Filter)) (hwf : FiltersInRange names column_ids filters) :
    ∃ file_numbers result,
      DynamicFilterPushdown env [] file_paths names column_ids filters =
        some (file_numbers, result) ∧
      file_numbers.length = (keptPaths file_paths result).length ∧
      file_numbers.Pairwise (fun a b => a < b) ∧
      ∀ k, k < (keptPaths file_paths result).length →
        ∃ n, file_numbers[k]? = some n ∧ file_paths[n]? = (keptPaths file_paths result)[k]? ∧
          (k < 2 ^ 31 → fileNumber file_numbers k = some n) := by
  obtain ⟨result, h1, h2⟩ := DynamicFilterPushdown_eq env file_paths names column_ids filters hwf
  refine ⟨_, result, h1, ?_, ?_, ?_⟩
  · rw [h2, List.length_map, List.length_map]
  · have hsub : (((file_paths.enum).filter
        (fun q => keepFile env names column_ids filters q.2)).map Prod.fst).Sublist
        (List.range file_paths.length) := by
      rw [← List.enum_map_fst]
      exact List.Sublist.map _ (List.filter_sublist _)
    exact List.Pairwise.sublist hsub (List.pairwise_lt_range _)
  · intro k hk
    rw [h2] at hk ⊢
    rw [List.length_map] at hk
    generalize hpairs : (file_paths.enum).filter
      (fun q => keepFile env names column_ids filters q.2) = pairs at hk ⊢
    have hall : ∀ q ∈ pairs, q ∈ file_paths.enum := by
      intro q hq
      rw [← hpairs] at hq
      exact (List.mem_filter.1 hq).1
    have hmem : pairs[k] ∈ file_paths.enum := hall _ (List.getElem_mem hk)
    have hget : file_paths[(pairs[k]).1]? = some (pairs[k]).2 :=
      List.mk_mem_enum_iff_getElem?.1 hmem
    have hfn : (pairs.map Prod.fst)[k]? = some (pairs[k]).1 := by
      rw [List.getElem?_map, List.getElem?_eq_getElem hk]
      rfl
    refine ⟨(pairs[k]).1, hfn, ?_, ?_⟩
    · rw [hget, List.getElem?_map, List.getElem?_eq_getElem hk]
      rfl
    · intro hk31
      have hne : (pairs.map Prod.fst).isEmpty = false := by
        cases pairs with
        | nil => cases hk
        | cons a l => rfl
      rw [fileNumber, NumericCast_int32, if_pos hk31]
      simp only [hne]
      exact hfn

theorem exampleEnv_inRange : FiltersInRange ["col"] [0] [((0 : Nat), (500 : Int))] := by
  intro e he
  rw [List.mem_singleton] at he
  subst he
  exact ⟨0, rfl, by decide⟩

theorem DynamicFilterPushdown_keeps_file_numbers_witness :
    ∃ file_numbers result,
      DynamicFilterPushdown exampleEnv [] ["A.parquet", "B.parquet"] ["col"] [0]
        [((0 : Nat), (500 : Int))] = some (file_numbers, result) ∧
      file_numbers.length = (keptPaths ["A.parquet", "B.parquet"] result).length ∧
      file_numbers.Pairwise (fun a b => a < b) ∧
      ∀ k, k < (keptPaths ["A.parquet", "B.parquet"] result).length →
        ∃ n, file_numbers[k]? = some n ∧
          ["A.parquet", "B.parquet"][n]? = (keptPaths ["A.parquet", "B.parquet"] result)[k]? ∧
          (k < 2 ^ 31 → fileNumber file_numbers k = some n) :=
  DynamicFilterPushdown_keeps_file_numbers exampleEnv ["A.parquet", "B.parquet"] ["col"] [0]
    [((0 : Nat), (500 : Int))] exampleEnv_inRange

theorem filterMap_fst_eq_map_snd {α : Type} (f : Nat → Option α) :
    ∀ (l : List (Nat × α)), (∀ q ∈ l, f q.1 = some q.2) →
      (l.map Prod.fst).filterMap f = l.map Prod.snd := by
  intro l
  induction l with
  | nil => intro _; rfl
  | cons q rest ih =>
    intro h
    rw [List.map_cons, List.filterMap_cons, h q (List.mem_cons_self _ _)]
    simp only [List.map_cons]
    rw [ih (fun q1 h1 => h q1 (List.mem_cons_of_mem _ h1))]

/-- C5. Statistics pruning criterion: `DynamicFilterPushdown` drops the file at index `i`
exactly when some filter of the set has a column summary present in that file's
statistics and checks to `FILTER_ALWAYS_FALSE` against it; every other file is kept, and
the kept files are the paths at the kept indices, in increasing index order. -/
theorem DynamicFilterPushdown_criterion {Filter Stats : Type}
    (env : ScanEnv Filter Stats) (file_paths names : List String) (column_ids : List Nat)
    (filters : List (Nat × Filter)) (hwf : FiltersInRange names column_ids filters) :
    ∃ file_numbers result,
      DynamicFilterPushdown env [] file_paths names column_ids filters =
        some (file_numbers, result) ∧
      (∀ i p, file_paths[i]? = some p →
        (i ∉ file_numbers ↔ Dropped env names column_ids filters p)) ∧
      (∀ i ∈ file_numbers, i < file_paths.length) ∧
      file_numbers.Pairwise (fun a b => a < b) ∧
      keptPaths file_paths result = file_numbers.filterMap (fun i => file_paths[i]?) ∧
      keptPaths file_paths result =
        file_paths.filter (keepFile env names column_ids filters) := by
  obtain ⟨result, h1, h2⟩ := DynamicFilterPushdown_eq env file_paths names column_ids filters hwf
  have hsub : (((file_paths.enum).filter
      (fun q => keepFile env names column_ids filters q.2)).map Prod.fst).Sublist
      (List.range file_paths.length) := by
    rw [← List.enum_map_fst]
    exact List.Sublist.map _ (List.filter_sublist _)
  refine ⟨_, result, h1, ?_, ?_, ?_, ?_, ?_⟩
  · intro i p hp
    have hk := keepFile_iff env names column_ids filters hwf p
    have hin : i ∈ ((file_paths.enum).filter
        (fun q => keepFile env names column_ids filters q.2)).map Prod.fst ↔
        keepFile env names column_ids filters p = true := by
      constructor
      · intro hm
        obtain ⟨q, hq, hqi⟩ := List.mem_map.1 hm
        obtain ⟨hq1, hq2⟩ := List.mem_filter.1 hq
        obtain ⟨i1, p1⟩ := q
        have hi : i1 = i := hqi
        subst hi
        have := List.mk_mem_enum_iff_getElem?.1 hq1
        rw [hp] at this
        cases this
        exact hq2
      · intro hk1
        exact List.mem_map.2 ⟨(i, p), List.mem_filter.2
          ⟨List.mk_mem_enum_iff_getElem?.2 hp, hk1⟩, rfl⟩
    constructor
    · intro hni
      by_contra hnd
      exact hni (hin.2 (hk.2 hnd))
    · intro hd hi
      exact (hk.1 (hin.1 hi)) hd
  · intro i hi
    exact List.mem_range.1 (hsub.subset hi)
  · exact List.Pairwise.sublist hsub (List.pairwise_lt_range _)
  · rw [h2, filterMap_fst_eq_map_snd]
    intro q hq
    exact List.mk_mem_enum_iff_getElem?.1 (List.mem_filter.1 hq).1
  · rw [h2, keptPairs_map_snd]

theorem DynamicFilterPushdown_criterion_witness :
    ∃ file_numbers result,
      DynamicFilterPushdown exampleEnv [] ["A.parquet", "B.parquet"] ["col"] [0]
        [((0 : Nat), (500 : Int))] = some (file_numbers, result) ∧
      (∀ i p, ["A.parquet", "B.parquet"][i]? = some p →
        (i ∉ file_numbers ↔ Dropped exampleEnv ["col"] [0] [((0 : Nat), (500 : Int))] p)) ∧
      (∀ i ∈ file_numbers, i < ["A.parquet", "B.parquet"].length) ∧
      file_numbers.Pairwise (fun a b => a < b) ∧
      keptPaths ["A.parquet", "B.parquet"] result =
        file_numbers.filterMap (fun i => ["A.parquet", "B.parquet"][i]?) ∧
      keptPaths ["A.parquet", "B.parquet"] result =
        ["A.parquet", "B.parquet"].filter
          (keepFile exampleEnv ["col"] [0] [((0 : Nat), (500 : Int))]) :=
  DynamicFilterPushdown_criterion exampleEnv ["A.parquet", "B.parquet"] ["col"] [0]
    [((0 : Nat), (500 : Int))] exampleEnv_inRange

/-! ## The write-through cache -/

/-- A sequence of `Write` calls appends the same bytes, the concatenation of the buffers,
to the cache handle and to the file's handle, when the host file system writes what it is
given. -/
theorem writeCalls_appends {H : Type} (fs : FileSystem H) (content : H → List Byte)
    (hw : ∀ h buffer, content (fs.Write h buffer).1 = content h ++ buffer) :
    ∀ (bufs : List (List Byte)) (self : SingleFileCachedWriteFileSystem H) (handle c : H),
      self.cached_file = some c →
      ∃ c1, (writeCalls fs (self, handle) bufs).1.cached_file = some c1 ∧
        content c1 = content c ++ bufs.flatten ∧
        content (writeCalls fs (self, handle) bufs).2 = content handle ++ bufs.flatten := by
  intro bufs
  induction bufs with
  | nil =>
    intro self handle c hc
    exact ⟨c, hc, by simp, by simp [writeCalls]⟩
  | cons b rest ih =>
    intro self handle c hc
    have hc1 : (SingleFileCachedWriteFileSystem.Write fs self handle b).1.cached_file =
        some (fs.Write c b).1 := by
      simp [SingleFileCachedWriteFileSystem.Write, hc]
    obtain ⟨c1, h1, h2, h3⟩ := ih (SingleFileCachedWriteFileSystem.Write fs self handle b).1
      (SingleFileCachedWriteFileSystem.Write fs self handle b).2.1 _ hc1
    refine ⟨c1, h1, ?_, ?_⟩
    · rw [h2, hw, List.flatten_cons, List.append_assoc]
    · rw [writeCalls]
      simp only
      rw [h3]
      simp only [SingleFileCachedWriteFileSystem.Write]
      rw [hw, List.flatten_cons, List.append_assoc]

/-- C8. Cache file bytes equal the file's bytes: after an `OpenFile` that opened a cache
handle, and after every `Write` of any sequence of `Write` calls, the bytes appended to
the cache file are the bytes appended to the file itself (relative to a host file system
whose `Write` appends the buffer it is given). -/
theorem cache_bytes_equal_primary {H : Type} (fs : FileSystem H) (content : H → List Byte)
    (hw : ∀ h buffer, content (fs.Write h buffer).1 = content h ++ buffer)
    (cfg : CacheSettings) (self : SingleFileCachedWriteFileSystem H) (path : String)
    (flags : Nat) (c0 : H)
    (hopen : (SingleFileCachedWriteFileSystem.OpenFile fs cfg self path flags).1.cached_file =
      some c0)
    (bufs : List (List Byte)) (k : Nat) :
    ∃ c appended,
      (writeCalls fs (SingleFileCachedWriteFileSystem.OpenFile fs cfg self path flags)
        (bufs.take k)).1.cached_file = some c ∧
      content c = content c0 ++ appended ∧
      content (writeCalls fs (SingleFileCachedWriteFileSystem.OpenFile fs cfg self path flags)
        (bufs.take k)).2 =
        content (SingleFileCachedWriteFileSystem.OpenFile fs cfg self path flags).2 ++ appended ∧
      appended = (bufs.take k).flatten := by
  obtain ⟨c1, h1, h2, h3⟩ := writeCalls_appends fs content hw (bufs.take k)
    (SingleFileCachedWriteFileSystem.OpenFile fs cfg self path flags).1
    (SingleFileCachedWriteFileSystem.OpenFile fs cfg self path flags).2 c0 hopen
  exact ⟨c1, _, h1, h2, h3, rfl⟩

theorem cache_bytes_equal_primary_witness :
    ∃ c appended,
      (writeCalls memFs (SingleFileCachedWriteFileSystem.OpenFile memFs cacheOn
        (SingleFileCachedWriteFileSystem.new cacheOn "f.parquet") "s3://b/f.parquet" 0)
        ([[80, 65], [82], [49, 7, 7]].take 2)).1.cached_file = some c ∧
      id c = id [] ++ appended ∧
      id (writeCalls memFs (SingleFileCachedWriteFileSystem.OpenFile memFs cacheOn
        (SingleFileCachedWriteFileSystem.new cacheOn "f.parquet") "s3://b/f.parquet" 0)
        ([[80, 65], [82], [49, 7, 7]].take 2)).2 =
        id (SingleFileCachedWriteFileSystem.OpenFile memFs cacheOn
          (SingleFileCachedWriteFileSystem.new cacheOn "f.parquet") "s3://b/f.parquet" 0).2 ++
          appended ∧
      appended = ([[80, 65], [82], [49, 7, 7]].take 2).flatten :=
  cache_bytes_equal_primary memFs id (fun _ _ => rfl) cacheOn
    (SingleFileCachedWriteFileSystem.new cacheOn "f.parquet") "s3://b/f.parquet" 0 []
    (by decide) [[80, 65], [82], [49, 7, 7]] 2


/-! ## The data file writer -/

/-- C6. File rotation: `DataFileWriter::Write` returns true exactly when, after appending
the chunk, the accumulator holds at least `ROW_GROUP_SIZE` rows or at least
`ROW_GROUP_SIZE * 1024` bytes and the writer's file size after the flush is at least
`2^30`; when the threshold is reached one row group is flushed and the accumulator is left
as the flush leaves it (empty, for a columnar writer whose flush resets the collection);
when it is not reached nothing is flushed and the result is false. -/
theorem DataFileWriter_Write_rotation {H W C Chunk : Type} (hostfs : FileSystem H)
    (eng : ColumnarEngine W C Chunk) (ROW_GROUP_SIZE : Nat)
    (hreset : ∀ w c, eng.Count (eng.Flush w c).2.1 = 0)
    (self : DataFileWriter H W C) (chunk : Chunk) :
    ((DataFileWriter.Write hostfs eng ROW_GROUP_SIZE self chunk).2 = true ↔
      (ROW_GROUP_SIZE ≤ eng.Count (eng.Append self.collection chunk) ∨
        ROW_GROUP_SIZE * 1024 ≤ eng.SizeInBytes (eng.Append self.collection chunk)) ∧
      2 ^ 30 ≤ eng.FileSize (eng.Flush self.writer (eng.Append self.collection chunk)).1) ∧
    ((ROW_GROUP_SIZE ≤ eng.Count (eng.Append self.collection chunk) ∨
        ROW_GROUP_SIZE * 1024 ≤ eng.SizeInBytes (eng.Append self.collection chunk)) →
      (DataFileWriter.Write hostfs eng ROW_GROUP_SIZE self chunk).1.writer =
        (eng.Flush self.writer (eng.Append self.collection chunk)).1 ∧
      (DataFileWriter.Write hostfs eng ROW_GROUP_SIZE self chunk).1.collection =
        (eng.Flush self.writer (eng.Append self.collection chunk)).2.1 ∧
      eng.Count (DataFileWriter.Write hostfs eng ROW_GROUP_SIZE self chunk).1.collection = 0) ∧
    (¬ (ROW_GROUP_SIZE ≤ eng.Count (eng.Append self.collection chunk) ∨
        ROW_GROUP_SIZE * 1024 ≤ eng.SizeInBytes (eng.Append self.collection chunk)) →
      DataFileWriter.Write hostfs eng ROW_GROUP_SIZE self chunk =
        ({ self with collection := eng.Append self.collection chunk }, false)) := by
  by_cases hr : ROW_GROUP_SIZE ≤ eng.Count (eng.Append self.collection chunk) ∨
      ROW_GROUP_SIZE * 1024 ≤ eng.SizeInBytes (eng.Append self.collection chunk)
  · have hw : DataFileWriter.Write hostfs eng ROW_GROUP_SIZE self chunk =
        ({ self with
            fs := (writeCalls hostfs (self.fs, self.handle)
              (eng.Flush self.writer (eng.Append self.collection chunk)).2.2).1,
            handle := (writeCalls hostfs (self.fs, self.handle)
              (eng.Flush self.writer (eng.Append self.collection chunk)).2.2).2,
            collection := (eng.Flush self.writer (eng.Append self.collection chunk)).2.1,
            writer := (eng.Flush self.writer (eng.Append self.collection chunk)).1 },
          decide (eng.FileSize (eng.Flush self.writer (eng.Append self.collection chunk)).1 ≥
            x_file_size_bytes)) := by
      unfold DataFileWriter.Write
      simp only [ge_iff_le]
      rw [if_pos hr]
    rw [hw]
    refine ⟨?_, ?_, ?_⟩
    · simp only [decide_eq_true_eq, ge_iff_le]
      constructor
      · intro h
        exact ⟨hr, h⟩
      · intro h
        exact h.2
    · intro _
      exact ⟨rfl, rfl, hreset _ _⟩
    · intro h
      exact absurd hr h
  · have hw : DataFileWriter.Write hostfs eng ROW_GROUP_SIZE self chunk =
        ({ self with collection := eng.Append self.collection chunk }, false) := by
      unfold DataFileWriter.Write
      simp only [ge_iff_le]
      rw [if_neg hr]
    rw [hw]
    refine ⟨?_, ?_, ?_⟩
    · constructor
      · intro h
        cases h
      · intro h
        exact absurd h.1 hr
    · intro h
      exact absurd h hr
    · intro _
      rfl

theorem demoEngine_reset (w : DemoWriter) (c : List Nat) :
    demoEngine.Count (demoEngine.Flush w c).2.1 = 0 := by
  cases c with
  | nil => rfl
  | cons a l => rfl

theorem DataFileWriter_Write_rotation_witness :
    DataFileWriter.Write memFs demoEngine 4
        (DataFileWriter.new memFs cacheOn demoEngine "s3://b/" "u0.parquet") [1, 2, 3] =
      ({ DataFileWriter.new memFs cacheOn demoEngine "s3://b/" "u0.parquet" with
          collection := [1, 2, 3] }, false) :=
  (DataFileWriter_Write_rotation memFs demoEngine 4 demoEngine_reset
    (DataFileWriter.new memFs cacheOn demoEngine "s3://b/" "u0.parquet") [1, 2, 3]).2.2
    (by decide)

theorem writeCalls_stream {H : Type} (fs : FileSystem H) :
    ∀ (bufs : List (List Byte)) (self : SingleFileCachedWriteFileSystem H) (handle : H),
      (writeCalls fs (self, handle) bufs).1.stream =
        self.stream.map (fun data => data ++ bufs.flatten) := by
  intro bufs
  induction bufs with
  | nil =>
    intro self handle
    cases h : self.stream <;> simp [writeCalls, h]
  | cons b rest ih =>
    intro self handle
    rw [writeCalls]
    simp only
    rw [ih]
    cases h : self.stream <;> simp [SingleFileCachedWriteFileSystem.Write, h]

theorem subU64_eq (a b : Nat) (hba : b ≤ a) : subU64 a b = a - b := by
  unfold subU64
  rw [if_pos hba]

/-- C7. `DataFileWriter::Finalize` returns `(file_size, metadata_blob)` with `file_size`
the bytes written to the data file before the finalize window plus the bytes recorded
during it, and `metadata_blob` the recorded bytes from position `offset` up to the last
eight: with `offset` bytes still buffered and `total_written` bytes written after the
residual flush, and a recorded stream `rec` of length `L >= offset + 8` with
`L - offset - 8 < 2^32` (and `total_written + L` within `idx_t`), the result is
`(total_written + L, rec[offset, L - 8))`, the blob of length `L - offset - 8`. -/
theorem DataFileWriter_Finalize_result {H W C Chunk : Type} (hostfs : FileSystem H)
    (eng : ColumnarEngine W C Chunk) (self : DataFileWriter H W C)
    (offset total_written : Nat) (rec : List Byte)
    (hoff : offset = eng.offset (eng.Flush self.writer self.collection).1)
    (htot : total_written = eng.total_written (eng.Flush self.writer self.collection).1)
    (hrec : rec = self.stream ++
      (eng.Finalize (eng.Flush self.writer self.collection).1).2.flatten)
    (h8 : offset + 8 ≤ rec.length) (h32 : rec.length - offset - 8 < 2 ^ 32)
    (h64 : total_written + rec.length < 2 ^ 64) :
    ∃ self1, DataFileWriter.Finalize hostfs eng self =
        some (self1, total_written + rec.length,
          (rec.drop offset).take (rec.length - offset - 8)) ∧
      ((rec.drop offset).take (rec.length - offset - 8)).length = rec.length - offset - 8 ∧
      (rec.drop offset).take (rec.length - offset - 8) ++ rec.drop (rec.length - 8) =
        rec.drop offset := by
  have hstream : (writeCalls hostfs
      (SingleFileCachedWriteFileSystem.StartRecording
        (writeCalls hostfs (self.fs, self.handle)
          (eng.Flush self.writer self.collection).2.2).1 self.stream,
       (writeCalls hostfs (self.fs, self.handle)
          (eng.Flush self.writer self.collection).2.2).2)
      (eng.Finalize (eng.Flush self.writer self.collection).1).2).1.stream = some rec := by
    rw [writeCalls_stream, hrec]
    rfl
  have hlen : subU64 (subU64 rec.length offset) 8 = rec.length - offset - 8 := by
    rw [subU64_eq rec.length offset (by omega), subU64_eq (rec.length - offset) 8 (by omega)]
  have hcast : NumericCast_uint32_u (subU64 (subU64 rec.length offset) 8) =
      some (rec.length - offset - 8) := by
    rw [hlen, NumericCast_uint32_u, if_pos h32]
  have hsize : (total_written + rec.length) % 2 ^ 64 = total_written + rec.length :=
    Nat.mod_eq_of_lt h64
  have hmap : (DataFileWriter.Finalize hostfs eng self).map Prod.snd =
      some (total_written + rec.length,
        (rec.drop offset).take (rec.length - offset - 8)) := by
    unfold DataFileWriter.Finalize
    simp only [hstream, Option.getD_some, ← hoff, ← htot, hcast, hsize, Option.map_some']
  have hex : ∃ self1, DataFileWriter.Finalize hostfs eng self =
      some (self1, total_written + rec.length,
        (rec.drop offset).take (rec.length - offset - 8)) := by
    cases h : DataFileWriter.Finalize hostfs eng self with
    | none =>
      rw [h] at hmap
      cases hmap
    | some r =>
      obtain ⟨s1, p⟩ := r
      rw [h] at hmap
      have hp : p = (total_written + rec.length,
          (rec.drop offset).take (rec.length - offset - 8)) := Option.some.inj hmap
      exact ⟨s1, by rw [hp]⟩
  obtain ⟨self1, hfin⟩ := hex
  refine ⟨self1, hfin, ?_, ?_⟩
  · rw [List.length_take, List.length_drop]
    omega
  · have : rec.drop (rec.length - 8) = (rec.drop offset).drop (rec.length - offset - 8) := by
      rw [List.drop_drop]
      have e : offset + (rec.length - offset - 8) = rec.length - 8 := by omega
      rw [e]
    rw [this, List.take_append_drop]

theorem DataFileWriter_Finalize_result_witness :
    ∃ self1, DataFileWriter.Finalize memFs demoEngine
        (DataFileWriter.new memFs cacheOn demoEngine "s3://b/" "u0.parquet") =
        some (self1, 0 + [80, 65, 82, 49, 21, 0, 2, 0, 0, 0, 80, 65, 82, 49].length,
          [21, 0]) :=
  (DataFileWriter_Finalize_result memFs demoEngine
    (DataFileWriter.new memFs cacheOn demoEngine "s3://b/" "u0.parquet")
    4 0 [80, 65, 82, 49, 21, 0, 2, 0, 0, 0, 80, 65, 82, 49] rfl rfl rfl
    (by decide) (by decide) (by decide)).imp fun _ h => h.1


/-! ## Registration of data files -/

theorem FinalizeDataFile_inv {H W C Chunk : Type} (host : Host H W C Chunk) (oid : Nat)
    (path : String) (st st1 : ColumnstoreWriter H W C × World)
    (hinv : WriterInv host oid path st) (hopen : st.1.writer.isSome = true)
    (h : ColumnstoreWriter.FinalizeDataFile host st.1 st.2 = some st1) :
    WriterInv host oid path st1 ∧ st1.1.writer = none ∧ st1.2.uuids = st.2.uuids := by
  obtain ⟨cw, world⟩ := st
  obtain ⟨hoid, hpath, files, hev, hnames⟩ := hinv
  simp only at hoid hpath hev hnames hopen h
  rw [hopen] at hev hnames
  simp only [if_true] at hev hnames
  unfold ColumnstoreWriter.FinalizeDataFile at h
  cases hw : cw.writer with
  | none => rw [hw] at hopen; cases hopen
  | some w =>
    rw [hw] at h
    simp only at h
    cases hf : DataFileWriter.Finalize host.fs host.eng w with
    | none => rw [hf] at h; cases h
    | some r =>
      obtain ⟨w1, file_size, file_metadata⟩ := r
      rw [hf] at h
      simp only [Option.some.injEq] at h
      subst h
      refine ⟨⟨hoid, hpath, files ++ [(cw.file_name, file_size, file_metadata)], ?_, ?_⟩,
        rfl, rfl⟩
      · simp only [hev, Option.isSome_none, List.flatMap_append, List.flatMap_cons,
          List.flatMap_nil, registration, hoid]
        simp
      · simp only [Option.isSome_none]
        simpa using hnames

theorem Write_inv {H W C Chunk : Type} (host : Host H W C Chunk) (oid : Nat)
    (path : String) (st st1 : ColumnstoreWriter H W C × World) (chunk : Chunk)
    (hinv : WriterInv host oid path st)
    (h : ColumnstoreWriter.Write host st.1 st.2 chunk = some st1) :
    WriterInv host oid path st1 ∧ st.2.uuids ≤ st1.2.uuids ∧
      (st.1.writer = none → st1.2.uuids = st.2.uuids + 1) := by
  obtain ⟨cw, world⟩ := st
  obtain ⟨hoid, hpath, files, hev, hnames⟩ := hinv
  simp only at hoid hpath hev hnames h
  -- the state after the writer has been opened, if it was not
  have hopened : ∃ (cw1 : ColumnstoreWriter H W C) (world1 : World) (w : DataFileWriter H W C),
      cw1.writer = some w ∧ WriterInv host oid path (cw1, world1) ∧
      world.uuids ≤ world1.uuids ∧ (cw.writer = none → world1.uuids = world.uuids + 1) ∧
      ColumnstoreWriter.Write host cw world chunk =
        (if (DataFileWriter.Write host.fs host.eng host.ROW_GROUP_SIZE w chunk).2 then
          ColumnstoreWriter.FinalizeDataFile host
            { cw1 with writer := some (DataFileWriter.Write host.fs host.eng host.ROW_GROUP_SIZE w chunk).1 } world1
        else some ({ cw1 with writer := some (DataFileWriter.Write host.fs host.eng host.ROW_GROUP_SIZE w chunk).1 }, world1)) := by
    cases hw : cw.writer with
    | some w =>
      refine ⟨cw, world, w, hw, ⟨hoid, hpath, files, hev, hnames⟩, Nat.le_refl _,
        (fun h => by cases h), ?_⟩
      unfold ColumnstoreWriter.Write
      simp only [hw]
    | none =>
      rw [hw] at hev hnames
      simp only [Option.isSome_none, Bool.false_eq_true, if_false, List.append_nil]
        at hev hnames
      refine ⟨{ cw with file_name := host.uuid world.uuids ++ ".parquet",
                        writer := some (DataFileWriter.new host.fs host.cfg host.eng cw.path
                          (host.uuid world.uuids ++ ".parquet")) },
        { events := world.events ++
            [Event.NewDataFileWriter cw.path (host.uuid world.uuids ++ ".parquet")],
          uuids := world.uuids + 1 }, _, rfl, ⟨hoid, hpath, files, ?_, ?_⟩,
        Nat.le_succ _, fun _ => rfl, ?_⟩
      · simp [hev, hpath]
      · simp only [Option.isSome_some, if_true, List.range_succ, List.map_append, hnames,
          List.map_cons, List.map_nil]
      · unfold ColumnstoreWriter.Write
        simp only [hw]
  obtain ⟨cw1, world1, w, hw1, ⟨hoid1, hpath1, files1, hev1, hnames1⟩, hle, hsucc, heq⟩ :=
    hopened
  simp only at hoid1 hpath1 hev1 hnames1
  rw [heq] at h
  have hinv2 : WriterInv host oid path
      ({ cw1 with writer := some (DataFileWriter.Write host.fs host.eng host.ROW_GROUP_SIZE w chunk).1 }, world1) := by
    refine ⟨hoid1, hpath1, files1, ?_, ?_⟩
    · simpa [hw1] using hev1
    · simpa [hw1] using hnames1
  split at h
  · obtain ⟨h1, _, h3⟩ := FinalizeDataFile_inv host oid path _ st1 hinv2 rfl h
    have h4 : st1.2.uuids = world1.uuids := h3
    refine ⟨h1, ?_, fun hn => ?_⟩
    · show world.uuids ≤ st1.2.uuids
      omega
    · show st1.2.uuids = world.uuids + 1
      rw [h4]
      exact hsucc hn
  · simp only [Option.some.injEq] at h
    subst h
    exact ⟨hinv2, hle, hsucc⟩

theorem Finalize_inv {H W C Chunk : Type} (host : Host H W C Chunk) (oid : Nat)
    (path : String) (st st1 : ColumnstoreWriter H W C × World)
    (hinv : WriterInv host oid path st)
    (h : ColumnstoreWriter.Finalize host st.1 st.2 = some st1) :
    WriterInv host oid path st1 ∧ st1.1.writer = none ∧ st1.2.uuids = st.2.uuids := by
  unfold ColumnstoreWriter.Finalize at h
  cases hw : st.1.writer with
  | some w =>
    rw [hw] at h
    exact FinalizeDataFile_inv host oid path st st1 hinv (by rw [hw]; rfl) h
  | none =>
    rw [hw] at h
    simp only [Option.some.injEq] at h
    subst h
    exact ⟨hinv, hw, rfl⟩

theorem run_inv {H W C Chunk : Type} (host : Host H W C Chunk) (oid : Nat) (path : String) :
    ∀ (calls : List (WriterCall Chunk)) (st st1 : ColumnstoreWriter H W C × World),
      WriterInv host oid path st → ColumnstoreWriter.run host st calls = some st1 →
      WriterInv host oid path st1 ∧
        (calls.getLast? = some WriterCall.Finalize → st1.1.writer = none) := by
  intro calls
  induction calls with
  | nil =>
    intro st st1 hinv h
    simp only [ColumnstoreWriter.run, Option.some.injEq] at h
    subst h
    exact ⟨hinv, fun hl => by cases hl⟩
  | cons c rest ih =>
    intro st st1 hinv h
    cases c with
    | Write chunk =>
      rw [ColumnstoreWriter.run] at h
      cases hs : ColumnstoreWriter.Write host st.1 st.2 chunk with
      | none => rw [hs] at h; cases h
      | some st2 =>
        rw [hs] at h
        obtain ⟨h1, h2⟩ := ih st2 st1 (Write_inv host oid path st st2 chunk hinv hs).1 h
        refine ⟨h1, fun hl => ?_⟩
        cases rest with
        | nil => cases hl
        | cons c1 rest1 => exact h2 (by simpa [List.getLast?_cons_cons] using hl)
    | Finalize =>
      rw [ColumnstoreWriter.run] at h
      cases hs : ColumnstoreWriter.Finalize host st.1 st.2 with
      | none => rw [hs] at h; cases h
      | some st2 =>
        rw [hs] at h
        obtain ⟨hf1, hf2, _⟩ := Finalize_inv host oid path st st2 hinv hs
        obtain ⟨h1, h2⟩ := ih st2 st1 hf1 h
        refine ⟨h1, fun hl => ?_⟩
        cases rest with
        | nil =>
          simp only [ColumnstoreWriter.run, Option.some.injEq] at h
          subst h
          exact hf2
        | cons c1 rest1 => exact h2 (by simpa [List.getLast?_cons_cons] using hl)

theorem WriterInv_new {H W C Chunk : Type} (host : Host H W C Chunk) (oid : Nat)
    (path : String) :
    WriterInv host oid path ((ColumnstoreWriter.new oid path : ColumnstoreWriter H W C),
      (⟨[], 0⟩ : World)) :=
  ⟨rfl, rfl, [], rfl, rfl⟩

theorem FinalizeDataFile_effect {H W C Chunk : Type} (host : Host H W C Chunk)
    (cw : ColumnstoreWriter H W C) (w : DataFileWriter H W C) (world : World)
    (st1 : ColumnstoreWriter H W C × World) (hw : cw.writer = some w)
    (h : ColumnstoreWriter.FinalizeDataFile host cw world = some st1) :
    Registers host cw w world st1 := by
  unfold ColumnstoreWriter.FinalizeDataFile at h
  rw [hw] at h
  simp only at h
  cases hf : DataFileWriter.Finalize host.fs host.eng w with
  | none => rw [hf] at h; cases h
  | some r =>
    obtain ⟨w1, file_size, file_metadata⟩ := r
    rw [hf] at h
    simp only [Option.some.injEq] at h
    subst h
    exact ⟨w1, file_size, file_metadata, hf, rfl, rfl, rfl⟩

theorem Write_effect {H W C Chunk : Type} (host : Host H W C Chunk)
    (st st1 : ColumnstoreWriter H W C × World) (chunk : Chunk)
    (h : ColumnstoreWriter.Write host st.1 st.2 chunk = some st1) :
    CallEffect host st (WriterCall.Write chunk) st1 := by
  obtain ⟨cw, world⟩ := st
  simp only at h
  unfold ColumnstoreWriter.Write at h
  cases hw : cw.writer with
  | some w =>
    simp only [CallEffect, hw, handChunk]
    simp only [hw] at h
    split at h
    · rename_i hr
      rw [if_pos hr]
      have := FinalizeDataFile_effect host _ _ world st1 rfl h
      exact this
    · rename_i hr
      rw [if_neg hr]
      exact (Option.some.inj h).symm
  | none =>
    simp only [CallEffect, hw, handChunk, newFileWriter, opened, nextFileName]
    simp only [hw] at h
    split at h
    · rename_i hr
      rw [if_pos hr]
      have := FinalizeDataFile_effect host _ _ _ st1 rfl h
      exact this
    · rename_i hr
      rw [if_neg hr]
      exact (Option.some.inj h).symm

theorem Finalize_effect {H W C Chunk : Type} (host : Host H W C Chunk)
    (st st1 : ColumnstoreWriter H W C × World)
    (h : ColumnstoreWriter.Finalize host st.1 st.2 = some st1) :
    CallEffect host st WriterCall.Finalize st1 := by
  obtain ⟨cw, world⟩ := st
  simp only at h
  unfold ColumnstoreWriter.Finalize at h
  cases hw : cw.writer with
  | some w =>
    simp only [CallEffect, hw]
    rw [hw] at h
    exact FinalizeDataFile_effect host cw w world st1 hw h
  | none =>
    simp only [CallEffect, hw]
    rw [hw] at h
    exact (Option.some.inj h).symm

theorem run_cons {H W C Chunk : Type} (host : Host H W C Chunk)
    (st fin : ColumnstoreWriter H W C × World) (c : WriterCall Chunk)
    (post : List (WriterCall Chunk))
    (h : ColumnstoreWriter.run host st (c :: post) = some fin) :
    ∃ st1, ColumnstoreWriter.run host st [c] = some st1 ∧
      ColumnstoreWriter.run host st1 post = some fin ∧ CallEffect host st c st1 := by
  cases c with
  | Write chunk =>
    rw [ColumnstoreWriter.run] at h
    cases hs : ColumnstoreWriter.Write host st.1 st.2 chunk with
    | none => rw [hs] at h; cases h
    | some st2 =>
      rw [hs] at h
      refine ⟨st2, ?_, h, Write_effect host st st2 chunk hs⟩
      rw [ColumnstoreWriter.run, hs]
      rfl
  | Finalize =>
    rw [ColumnstoreWriter.run] at h
    cases hs : ColumnstoreWriter.Finalize host st.1 st.2 with
    | none => rw [hs] at h; cases h
    | some st2 =>
      rw [hs] at h
      refine ⟨st2, ?_, h, Finalize_effect host st st2 hs⟩
      rw [ColumnstoreWriter.run, hs]
      rfl

theorem run_append {H W C Chunk : Type} (host : Host H W C Chunk) :
    ∀ (pre post : List (WriterCall Chunk)) (st fin : ColumnstoreWriter H W C × World),
      ColumnstoreWriter.run host st (pre ++ post) = some fin →
      ∃ mid, ColumnstoreWriter.run host st pre = some mid ∧
        ColumnstoreWriter.run host mid post = some fin := by
  intro pre
  induction pre with
  | nil =>
    intro post st fin h
    exact ⟨st, rfl, h⟩
  | cons c rest ih =>
    intro post st fin h
    rw [List.cons_append] at h
    cases c with
    | Write chunk =>
      rw [ColumnstoreWriter.run] at h
      cases hs : ColumnstoreWriter.Write host st.1 st.2 chunk with
      | none => rw [hs] at h; cases h
      | some st2 =>
        rw [hs] at h
        obtain ⟨mid, h1, h2⟩ := ih post st2 fin h
        refine ⟨mid, ?_, h2⟩
        rw [ColumnstoreWriter.run, hs]
        exact h1
    | Finalize =>
      rw [ColumnstoreWriter.run] at h
      cases hs : ColumnstoreWriter.Finalize host st.1 st.2 with
      | none => rw [hs] at h; cases h
      | some st2 =>
        rw [hs] at h
        obtain ⟨mid, h1, h2⟩ := ih post st2 fin h
        refine ⟨mid, ?_, h2⟩
        rw [ColumnstoreWriter.run, hs]
        exact h1

/-- C9. Every closed data file is registered exactly once. Take any sequence of `Write`
and `Finalize` calls on a new `ColumnstoreWriter`, none of which fails.
* The trace consists of one block per closed data file -- the `DataFileWriter` is
  constructed, its `Finalize` returns `(file_size, metadata_blob)`, then one
  `DataFilesInsert(oid, file_name, metadata_blob)`, then one `LakeAddFile(oid, file_name,
  file_size)` -- followed only by the construction of the writer that is open, if one is;
  the file names are the generated ones, in order.
* After a `Finalize` no writer is open.
* Every call of the sequence does, from the state it finds, what `CallEffect` says: a
  file is closed by a `Finalize` that finds a writer open, or by a `Write` whose data file
  writer asks for rotation, and is then registered with the `oid` and `file_name` of the
  writer and with the tuple that `DataFileWriter::Finalize` of that very data file writer
  returns, after which no writer is open; a `Write` that finds no writer open generates
  the next file name and constructs a new `DataFileWriter` for it before handing it the
  chunk. -/
theorem ColumnstoreWriter_registers_once {H W C Chunk : Type} (host : Host H W C Chunk)
    (oid : Nat) (path : String) (calls : List (WriterCall Chunk))
    (cw : ColumnstoreWriter H W C) (world : World)
    (hrun : ColumnstoreWriter.run host (ColumnstoreWriter.new oid path, ⟨[], 0⟩) calls =
      some (cw, world)) :
    (∃ files : List (String × Nat × List Byte),
      world.events = files.flatMap (registration oid path) ++
        (if cw.writer.isSome then [Event.NewDataFileWriter path cw.file_name] else []) ∧
      files.map Prod.fst ++ (if cw.writer.isSome then [cw.file_name] else []) =
        (List.range world.uuids).map (fun k => host.uuid k ++ ".parquet")) ∧
    (calls.getLast? = some WriterCall.Finalize → cw.writer = none) ∧
    (∀ (pre post : List (WriterCall Chunk)) (c : WriterCall Chunk),
      calls = pre ++ c :: post →
      ∃ st st1 : ColumnstoreWriter H W C × World,
        ColumnstoreWriter.run host (ColumnstoreWriter.new oid path, ⟨[], 0⟩) pre = some st ∧
        ColumnstoreWriter.run host st [c] = some st1 ∧
        ColumnstoreWriter.run host st1 post = some (cw, world) ∧
        st.1.oid = oid ∧ st.1.path = path ∧
        CallEffect host st c st1) := by
  obtain ⟨⟨_, _, hfiles⟩, hlast⟩ := run_inv host oid path calls _ _
    (WriterInv_new host oid path) hrun
  refine ⟨hfiles, hlast, ?_⟩
  intro pre post c hcalls
  rw [hcalls] at hrun
  obtain ⟨st, hpre, hrest⟩ := run_append host pre (c :: post) _ _ hrun
  obtain ⟨st1, hc, hpost, heff⟩ := run_cons host st (cw, world) c post hrest
  obtain ⟨⟨hoid, hpath, _⟩, _⟩ := run_inv host oid path pre _ st
    (WriterInv_new host oid path) hpre
  exact ⟨st, st1, hpre, hc, hpost, hoid, hpath, heff⟩


theorem ColumnstoreWriter_registers_once_witness :
    (∃ files : List (String × Nat × List Byte),
      [Event.NewDataFileWriter "s3://b/" "u0.parquet",
       Event.DataFileFinalized "u0.parquet" 16 [21, 0],
       Event.DataFilesInsert 7 "u0.parquet" [21, 0],
       Event.LakeAddFile 7 "u0.parquet" 16] =
        files.flatMap (registration 7 "s3://b/") ++
        (if (none : Option (DataFileWriter (List Byte) DemoWriter (List Nat))).isSome then
          [Event.NewDataFileWriter "s3://b/" "u0.parquet"] else []) ∧
      files.map Prod.fst ++
        (if (none : Option (DataFileWriter (List Byte) DemoWriter (List Nat))).isSome then
          ["u0.parquet"] else []) =
        (List.range 1).map (fun k => demoHost.uuid k ++ ".parquet")) :=
  (ColumnstoreWriter_registers_once demoHost 7 "s3://b/"
    [WriterCall.Write [1, 2], WriterCall.Finalize]
    ⟨7, "s3://b/", "u0.parquet", none⟩
    ⟨[Event.NewDataFileWriter "s3://b/" "u0.parquet",
      Event.DataFileFinalized "u0.parquet" 16 [21, 0],
      Event.DataFilesInsert 7 "u0.parquet" [21, 0],
      Event.LakeAddFile 7 "u0.parquet" 16], 1⟩ rfl).1

/-! ## Inserting nothing -/

theorem Insert_inv {H W C Chunk : Type} (host : Host H W C Chunk) (oid : Nat)
    (path : String) (st st1 : ColumnstoreTable H W C × World) (chunk : Chunk)
    (hinv : TableInv host oid path st)
    (h : ColumnstoreTable.Insert host st.1 st.2 chunk = some st1) :
    TableInv host oid path st1 ∧ st1.1.writer.isSome = true := by
  obtain ⟨t, world⟩ := st
  obtain ⟨hoid, hpath, hw⟩ := hinv
  simp only at hoid hpath hw h
  unfold ColumnstoreTable.Insert at h
  cases ht : t.writer with
  | none =>
    rw [ht] at h hw
    simp only at h hw
    subst hw
    cases hs : ColumnstoreWriter.Write host
        (ColumnstoreWriter.new t.oid t.path : ColumnstoreWriter H W C) ⟨[], 0⟩ chunk with
    | none => rw [hs] at h; cases h
    | some r =>
      obtain ⟨cw1, world1⟩ := r
      rw [hs] at h
      simp only [Option.some.injEq] at h
      subst h
      have hnew : WriterInv host oid path
          ((ColumnstoreWriter.new t.oid t.path : ColumnstoreWriter H W C), (⟨[], 0⟩ : World)) := by
        rw [hoid, hpath]
        exact WriterInv_new host oid path
      obtain ⟨h1, _, h3⟩ := Write_inv host oid path _ (cw1, world1) chunk hnew hs
      have hu : world1.uuids = 1 := h3 rfl
      exact ⟨⟨hoid, hpath, h1, Nat.le_of_eq hu.symm⟩, rfl⟩
  | some cw =>
    rw [ht] at h hw
    simp only at h hw
    cases hs : ColumnstoreWriter.Write host cw world chunk with
    | none => rw [hs] at h; cases h
    | some r =>
      obtain ⟨cw1, world1⟩ := r
      rw [hs] at h
      simp only [Option.some.injEq] at h
      subst h
      obtain ⟨h1, h2, _⟩ := Write_inv host oid path (cw, world) (cw1, world1) chunk hw.1 hs
      have h3 : world.uuids ≤ world1.uuids := h2
      exact ⟨⟨hoid, hpath, h1, Nat.le_trans hw.2 h3⟩, rfl⟩

theorem insertAll_inv {H W C Chunk : Type} (host : Host H W C Chunk) (oid : Nat)
    (path : String) :
    ∀ (chunks : List Chunk) (st st1 : ColumnstoreTable H W C × World),
      TableInv host oid path st →
      ColumnstoreTable.insertAll host st chunks = some st1 →
      TableInv host oid path st1 ∧ (chunks ≠ [] → st1.1.writer.isSome = true) := by
  intro chunks
  induction chunks with
  | nil =>
    intro st st1 hinv h
    simp only [ColumnstoreTable.insertAll, Option.some.injEq] at h
    subst h
    exact ⟨hinv, fun hne => absurd rfl hne⟩
  | cons chunk rest ih =>
    intro st st1 hinv h
    rw [ColumnstoreTable.insertAll] at h
    cases hs : ColumnstoreTable.Insert host st.1 st.2 chunk with
    | none => rw [hs] at h; cases h
    | some st2 =>
      rw [hs] at h
      obtain ⟨h1, h2⟩ := Insert_inv host oid path st st2 chunk hinv hs
      obtain ⟨h3, h4⟩ := ih st2 st1 h1 h
      refine ⟨h3, fun _ => ?_⟩
      cases rest with
      | nil =>
        simp only [ColumnstoreTable.insertAll, Option.some.injEq] at h
        subst h
        exact h2
      | cons c1 rest1 => exact h4 (by simp)

/-- C10, as amended. When `Insert` was never called, `FinalizeInsert` creates no data file
and makes no `DataFilesInsert` and no `LakeAddFile` call; once `Insert` has been called,
with chunks of any size (zero rows included), a data file writer has been constructed, and
a `FinalizeInsert` that returns has registered its file with `DataFilesInsert` and
`LakeAddFile`. -/
theorem FinalizeInsert_registers_iff_inserted {H W C Chunk : Type}
    (host : Host H W C Chunk) (oid : Nat) (path : String) :
    ColumnstoreTable.insertThenFinalize host oid path [] =
      some ((ColumnstoreTable.new oid path : ColumnstoreTable H W C), (⟨[], 0⟩ : World)) ∧
    ∀ (chunks : List Chunk) (t : ColumnstoreTable H W C) (world : World), chunks ≠ [] →
      ColumnstoreTable.insertThenFinalize host oid path chunks = some (t, world) →
      ∃ file_name file_size file_metadata,
        Event.NewDataFileWriter path file_name ∈ world.events ∧
        Event.DataFilesInsert oid file_name file_metadata ∈ world.events ∧
        Event.LakeAddFile oid file_name file_size ∈ world.events := by
  refine ⟨rfl, ?_⟩
  intro chunks t world hne h
  unfold ColumnstoreTable.insertThenFinalize at h
  cases hs : ColumnstoreTable.insertAll host
      ((ColumnstoreTable.new oid path : ColumnstoreTable H W C), (⟨[], 0⟩ : World)) chunks with
  | none => rw [hs] at h; cases h
  | some st =>
    rw [hs] at h
    simp only at h
    obtain ⟨⟨_, _, hw⟩, hsome⟩ := insertAll_inv host oid path chunks _ st
      ⟨rfl, rfl, rfl⟩ hs
    have hopen := hsome hne
    unfold ColumnstoreTable.FinalizeInsert at h
    cases ht : st.1.writer with
    | none => rw [ht] at hopen; cases hopen
    | some cw =>
      rw [ht] at h hw
      simp only at h hw
      cases hf : ColumnstoreWriter.Finalize host cw st.2 with
      | none => rw [hf] at h; cases h
      | some r =>
        obtain ⟨cw1, world1⟩ := r
        rw [hf] at h
        simp only [Option.some.injEq, Prod.mk.injEq] at h
        obtain ⟨_, hworld⟩ := h
        subst hworld
        obtain ⟨⟨_, _, files, hev, hnames⟩, hnone, hu⟩ :=
          Finalize_inv host oid path (cw, st.2) (cw1, world1) hw.1 hf
        simp only at hev hnames hnone hu
        rw [hnone] at hev hnames
        simp only [Option.isSome_none, List.append_nil] at hev hnames
        have hlen : files.length = world1.uuids := by
          have := congrArg List.length hnames
          simpa using this
        cases files with
        | nil =>
          simp only [List.length_nil] at hlen
          have := hw.2
          omega
        | cons f rest =>
          refine ⟨f.1, f.2.1, f.2.2, ?_, ?_, ?_⟩ <;>
            (rw [hev]; simp [registration])

theorem FinalizeInsert_registers_iff_inserted_witness :
    ∃ file_name file_size file_metadata,
      Event.NewDataFileWriter "s3://b/" file_name ∈
        [Event.NewDataFileWriter "s3://b/" "u0.parquet",
         Event.DataFileFinalized "u0.parquet" 20 [21, 0],
         Event.DataFilesInsert 7 "u0.parquet" [21, 0],
         Event.LakeAddFile 7 "u0.parquet" 20] ∧
      Event.DataFilesInsert 7 file_name file_metadata ∈
        [Event.NewDataFileWriter "s3://b/" "u0.parquet",
         Event.DataFileFinalized "u0.parquet" 20 [21, 0],
         Event.DataFilesInsert 7 "u0.parquet" [21, 0],
         Event.LakeAddFile 7 "u0.parquet" 20] ∧
      Event.LakeAddFile 7 file_name file_size ∈
        [Event.NewDataFileWriter "s3://b/" "u0.parquet",
         Event.DataFileFinalized "u0.parquet" 20 [21, 0],
         Event.DataFilesInsert 7 "u0.parquet" [21, 0],
         Event.LakeAddFile 7 "u0.parquet" 20] :=
  (FinalizeInsert_registers_iff_inserted demoHost 7 "s3://b/").2 [[1, 2], [3, 4, 5], [6]]
    ⟨7, "s3://b/", none⟩
    ⟨[Event.NewDataFileWriter "s3://b/" "u0.parquet",
      Event.DataFileFinalized "u0.parquet" 20 [21, 0],
      Event.DataFilesInsert 7 "u0.parquet" [21, 0],
      Event.LakeAddFile 7 "u0.parquet" 20], 1⟩ (by simp) rfl

/-- C10 (counterexample to the claim as stated). One `Insert` of a chunk with zero rows,
then `FinalizeInsert`: a data file writer is constructed, and the file is inserted into
the catalog and added to the lake. -/
theorem zero_row_insert_registers_file :
    demoEngine.Count (demoEngine.Append demoEngine.emptyCollection []) = 0 ∧
    (ColumnstoreTable.insertThenFinalize demoHost 7 "s3://b/" [[]]).map Prod.snd =
      some ⟨[Event.NewDataFileWriter "s3://b/" "u0.parquet",
             Event.DataFileFinalized "u0.parquet" 14 [21, 0],
             Event.DataFilesInsert 7 "u0.parquet" [21, 0],
             Event.LakeAddFile 7 "u0.parquet" 14], 1⟩ := by
  refine ⟨rfl, ?_⟩
  decide


/-! ## Column-id de-duplication -/

theorem mem_firstOccurrences (l : List Nat) (x : Nat) : x ∈ firstOccurrences l ↔ x ∈ l := by
  induction l with
  | nil => simp [firstOccurrences]
  | cons a rest ih =>
    simp only [firstOccurrences, List.mem_cons, List.mem_filter, ih, decide_eq_true_eq]
    constructor
    · rintro (h | ⟨h, _⟩)
      · exact Or.inl h
      · exact Or.inr h
    · rintro (h | h)
      · exact Or.inl h
      · by_cases hx : x = a
        · exact Or.inl hx
        · exact Or.inr ⟨h, hx⟩

theorem firstOccurrences_nodup (l : List Nat) : (firstOccurrences l).Nodup := by
  induction l with
  | nil => simp [firstOccurrences]
  | cons a rest ih =>
    simp only [firstOccurrences, List.nodup_cons, List.mem_filter, decide_eq_true_eq]
    exact ⟨fun h => h.2 rfl, List.Nodup.filter _ ih⟩

theorem MapAgrees_set (m : ColumnIdsMap) (cs : List Nat) (x : Nat) (h : MapAgrees m cs)
    (hx : (m x).isNone = true) : MapAgrees (m.set x cs.length) (cs ++ [x]) := by
  obtain ⟨h1, h2⟩ := h
  have hxc : x ∉ cs := by
    intro hmem
    have := (h1 x).2 hmem
    rw [Option.isNone_iff_eq_none] at hx
    rw [hx] at this
    cases this
  constructor
  · intro k
    unfold ColumnIdsMap.set
    by_cases hk : k = x
    · simp [hk]
    · simp [hk, h1 k]
  · intro k i hki
    unfold ColumnIdsMap.set at hki
    by_cases hk : k = x
    · rw [if_pos hk] at hki
      cases hki
      rw [hk]
      simp
    · rw [if_neg hk] at hki
      have hi := h2 k i hki
      have hlt : i < cs.length := by
        rcases Nat.lt_or_ge i cs.length with h | h
        · exact h
        · rw [List.getElem?_eq_none h] at hi
          cases hi
      rw [List.getElem?_append_left hlt]
      exact hi

/-- The first loop extends the vector by the first occurrences of the values not yet in
it, and keeps the map in agreement with the vector. -/
theorem dedupLoop_spec :
    ∀ (xs : List Nat) (m : ColumnIdsMap) (cs : List Nat), MapAgrees m cs →
      MapAgrees (dedupLoop xs m cs).1 (dedupLoop xs m cs).2 ∧
      (dedupLoop xs m cs).2 =
        cs ++ (firstOccurrences xs).filter (fun y => decide (y ∉ cs)) := by
  intro xs
  induction xs with
  | nil =>
    intro m cs h
    exact ⟨h, by simp [dedupLoop, firstOccurrences]⟩
  | cons x rest ih =>
    intro m cs h
    by_cases hx : (m x).isNone = true
    · have hxc : x ∉ cs := by
        intro hmem
        have := (h.1 x).2 hmem
        rw [Option.isNone_iff_eq_none] at hx
        rw [hx] at this
        cases this
      have hstep : dedupLoop (x :: rest) m cs =
          dedupLoop rest (m.set x cs.length) (cs ++ [x]) := by
        rw [dedupLoop, if_pos hx]
      obtain ⟨h1, h2⟩ := ih (m.set x cs.length) (cs ++ [x]) (MapAgrees_set m cs x h hx)
      rw [hstep]
      refine ⟨h1, ?_⟩
      rw [h2, firstOccurrences, List.filter_cons]
      simp only [hxc, not_false_eq_true, decide_True, if_true, List.append_assoc,
        List.singleton_append, List.filter_filter]
      congr 2
      apply List.filter_congr
      intro y _
      simp only [List.mem_append, List.mem_singleton, not_or, ne_eq, Bool.decide_and,
        Bool.and_comm]
    · have hxc : x ∈ cs := by
        apply (h.1 x).1
        cases hm : m x with
        | none => rw [hm] at hx; exact absurd rfl hx
        | some v => rfl
      have hstep : dedupLoop (x :: rest) m cs = dedupLoop rest m cs := by
        rw [dedupLoop, if_neg hx]
      obtain ⟨h1, h2⟩ := ih m cs h
      rw [hstep]
      refine ⟨h1, ?_⟩
      rw [h2, firstOccurrences, List.filter_cons]
      simp only [hxc, not_true_eq_false, decide_False, Bool.false_eq_true, if_false,
        List.filter_filter]
      congr 1
      apply List.filter_congr
      intro y _
      by_cases hy : y ∈ cs
      · simp [hy]
      · have : y ≠ x := fun e => hy (e ▸ hxc)
        simp [hy, this]

theorem remapLoop_spec (input_column_ids : List Nat) (m : ColumnIdsMap) (cs : List Nat)
    (hm : MapAgrees m cs) (hall : ∀ x ∈ input_column_ids, x ∈ cs) :
    ∀ (ps : List Nat), (∀ p ∈ ps, p < input_column_ids.length) →
      ∃ r, remapLoop input_column_ids m ps = some r ∧ r.length = ps.length ∧
        ∀ (i p : Nat), ps[i]? = some p →
          ∃ q : Nat, r[i]? = some q ∧ (input_column_ids[p]?).isSome = true ∧
            cs[q]? = input_column_ids[p]? := by
  intro ps
  induction ps with
  | nil =>
    intro _
    exact ⟨[], rfl, rfl, fun i p h => by simp at h⟩
  | cons p rest ih =>
    intro hv
    obtain ⟨r, hr, hlen, hall1⟩ := ih (fun q hq => hv q (List.mem_cons_of_mem _ hq))
    have hp : p < input_column_ids.length := hv p (List.mem_cons_self _ _)
    have hget : input_column_ids[p]? = some input_column_ids[p] := List.getElem?_eq_getElem hp
    have hmem : input_column_ids[p] ∈ cs := hall _ (List.getElem_mem hp)
    obtain ⟨v, hv1⟩ := Option.isSome_iff_exists.1 ((hm.1 _).2 hmem)
    refine ⟨m.subscript input_column_ids[p] :: r, ?_, ?_, ?_⟩
    · rw [remapLoop, hget]
      simp only
      rw [hr]
    · simp [hlen]
    · intro i q hq
      cases i with
      | zero =>
        simp only [List.getElem?_cons_zero, Option.some.injEq] at hq
        subst hq
        refine ⟨m.subscript input_column_ids[p], by simp, by rw [hget]; rfl, ?_⟩
        rw [hget, ColumnIdsMap.subscript, hv1]
        exact hm.2 _ _ hv1
      | succ n =>
        rw [List.getElem?_cons_succ] at hq
        obtain ⟨q1, h1, h2, h3⟩ := hall1 n q hq
        exact ⟨q1, by rw [List.getElem?_cons_succ]; exact h1, h2, h3⟩

/-- C11. Column-id de-duplication in `ColumnstoreScanInitGlobal`: for every
`input.column_ids` and every `input.projection_ids` whose entries are valid indices into
it, the column ids passed on have no duplicates and are the distinct values of
`input.column_ids` in first-occurrence order, and the remapped projection ids have the
length of the input with `new_column_ids[new_projection_ids[i]] =
input.column_ids[input.projection_ids[i]]` for every `i`. -/
theorem ColumnstoreScanInitGlobal_dedup (input_column_ids input_projection_ids : List Nat)
    (hvalid : ∀ p ∈ input_projection_ids, p < input_column_ids.length) :
    ∃ column_ids projection_ids,
      ColumnstoreScanInitGlobal input_column_ids input_projection_ids =
        some (column_ids, projection_ids) ∧
      column_ids.Nodup ∧
      column_ids = firstOccurrences input_column_ids ∧
      (∀ x, x ∈ column_ids ↔ x ∈ input_column_ids) ∧
      projection_ids.length = input_projection_ids.length ∧
      ∀ (i p : Nat), input_projection_ids[i]? = some p →
        ∃ q : Nat, projection_ids[i]? = some q ∧ (input_column_ids[p]?).isSome = true ∧
          column_ids[q]? = input_column_ids[p]? := by
  have h0 : MapAgrees (fun _ => none) [] :=
    ⟨fun k => by simp, fun k i h => by cases h⟩
  obtain ⟨hm, hcs⟩ := dedupLoop_spec input_column_ids (fun _ => none) [] h0
  have hfirst : (dedupLoop input_column_ids (fun _ => none) []).2 =
      firstOccurrences input_column_ids := by
    rw [hcs]
    simp
  obtain ⟨r, hr, hlen, hproj⟩ := remapLoop_spec input_column_ids _ _ hm
    (fun x hx => by rw [hfirst]; exact (mem_firstOccurrences _ _).2 hx)
    input_projection_ids hvalid
  refine ⟨(dedupLoop input_column_ids (fun _ => none) []).2, r, ?_, ?_, hfirst, ?_, hlen, hproj⟩
  · unfold ColumnstoreScanInitGlobal
    simp only [hr]
  · rw [hfirst]
    exact firstOccurrences_nodup _
  · intro x
    rw [hfirst]
    exact mem_firstOccurrences _ _

theorem ColumnstoreScanInitGlobal_dedup_witness :
    ∃ column_ids projection_ids,
      ColumnstoreScanInitGlobal [5, 3, 5, 7, 3] [0, 2, 4, 3, 1] =
        some (column_ids, projection_ids) ∧
      column_ids.Nodup ∧
      column_ids = firstOccurrences [5, 3, 5, 7, 3] ∧
      (∀ x, x ∈ column_ids ↔ x ∈ [5, 3, 5, 7, 3]) ∧
      projection_ids.length = [0, 2, 4, 3, 1].length ∧
      ∀ (i p : Nat), [0, 2, 4, 3, 1][i]? = some p →
        ∃ q : Nat, projection_ids[i]? = some q ∧ ([5, 3, 5, 7, 3][p]?).isSome = true ∧
          column_ids[q]? = [5, 3, 5, 7, 3][p]? :=
  ColumnstoreScanInitGlobal_dedup [5, 3, 5, 7, 3] [0, 2, 4, 3, 1] (by decide)

end Columnstore
